import Mathlib

/-!
The command recommendation engine of dwimsh.

A shallow embedding of `src/dwimsh.c` (the "Do What I Mean" shell): the string
distances, the similarity search over the command table, the removal of
duplicate recommendations, the interactive yes/no dialogue of `main`, the
construction of the command table and the dispatch of a token sequence.  The
edit distance of the specification (`editDistance`, `EditStep`, `EditPath`) and
`keepFirstOccurrences` are not code: they state what the specification asks.

Modelling conventions.

* A C string is the list of its bytes (the terminating NUL is not stored), a
  byte is a `Fin 256`, and `strlen` is the length of the list.
* A `char *` array with its element count (`cmdTable`, `recommendations`,
  `tokens`) is the list of its live elements.
* String lengths and edit distances are C `int` or `size_t` values far below
  the range limits, so they are natural numbers here.  Their conversions to
  `double` and `float` are exact for every value below `2 ^ 24` and are taken as
  exact.  The binary32 quotient computed in `FindSimilarCommands` is not exact:
  it is rounded to nearest, ties to even, and that rounding is modelled.
* Fixed buffers (`newCommand`, `lowerResponse`, `userInput`) are assumed large
  enough for the strings written to them.
* What the program reads from its environment is an argument of the model: the
  directory entries that `readdir` lists, the outcome of `fork` and `waitpid`,
  the lines that `fgets` returns.
-/

namespace Dwimsh

/-! ## Strings -/

/-- A byte, the value of a C `unsigned char`. -/
abbrev Byte := Fin 256

/-- A C string: its bytes up to, and without, the terminating NUL. -/
abbrev CString := List Byte

/-- The C string of an ASCII string literal. -/
def cstr (s : String) : CString := s.toList.map (fun c => Fin.ofNat c.toNat)

/-- The C library `strlen`. -/
def strlen (s : CString) : Nat := s.length

/-- The C library `strstr`: the suffix of `haystack` that starts at the first
occurrence of `needle`, or `none` (the NULL pointer) when there is none. -/
def strstr : CString → CString → Option CString
  | [], needle => if needle.isPrefixOf [] then some [] else none
  | c :: haystack, needle =>
    if needle.isPrefixOf (c :: haystack) then some (c :: haystack) else strstr haystack needle

/-! ## Constants -/

/-- `#define MAX_CMD_LENGTH 1024` -/
def MAX_CMD_LENGTH : Nat := 1024

/-- `#define MAX_RECOMMENDATIONS 100` -/
def MAX_RECOMMENDATIONS : Nat := 100

/-! ## Binary floating point

Only non-negative finite values occur.  A value is kept as `mant * 2 ^ exp`; the
exponent range of the formats is never approached and is not modelled. -/

/-- A non-negative binary floating-point value `mant * 2 ^ exp`. -/
structure BinFloat where
  mant : Nat
  exp : Int
  deriving DecidableEq

/-- The comparison `x <= y` of two floating-point values (exact, as in C, where
the `float` operand is first promoted to `double` without change of value). -/
def BinFloat.le (x y : BinFloat) : Bool :=
  let m := min x.exp y.exp
  decide (x.mant * 2 ^ (x.exp - m).toNat ≤ y.mant * 2 ^ (y.exp - m).toNat)

/-- The exact conversion of an integer (a length or a distance). -/
def BinFloat.ofNat (n : Nat) : BinFloat := ⟨n, 0⟩

/-- The exact product of two floating-point values. -/
def BinFloat.mul (x y : BinFloat) : BinFloat := ⟨x.mant * y.mant, x.exp + y.exp⟩

/-- The nearest integer to `a / b`, ties to the even one. -/
def roundHalfEven (a b : Nat) : Nat :=
  let q := a / b
  let r := a % b
  if 2 * r < b then q else if b < 2 * r then q + 1 else if q % 2 = 0 then q else q + 1

/-- Scale `a / b` by a power of two until `2 ^ (p - 1) ≤ a / b < 2 ^ p`; the
result `(a1, b1, e)` satisfies `a / b = (a1 / b1) * 2 ^ e`. -/
def normalizeQuotient (p : Nat) : Nat → Nat → Nat → Int → Nat × Nat × Int
  | 0, a, b, e => (a, b, e)
  | fuel + 1, a, b, e =>
    if a < 2 ^ (p - 1) * b then normalizeQuotient p fuel (2 * a) b (e - 1)
    else if 2 ^ p * b ≤ a then normalizeQuotient p fuel a (2 * b) (e + 1)
    else (a, b, e)

/-- The quotient `a / b` of two positive integers correctly rounded to a
significand of `p` bits (round to nearest, ties to even): what an IEEE 754
division returns in a format of precision `p`, and what a decimal literal
`a / b` denotes in it. -/
def roundQuotient (p a b : Nat) : BinFloat :=
  if a = 0 then ⟨0, 0⟩
  else
    let n := normalizeQuotient p (p + a + b) a b 0
    ⟨roundHalfEven n.1 n.2.1, n.2.2⟩

/-- The literal `0.5`, a `double`. -/
def half : BinFloat := roundQuotient 53 5 10

/-- `#define LEVENSHTEIN_THRESHOLD 0.4`: the literal is a `double`, the binary64
value nearest to 4/10. -/
def LEVENSHTEIN_THRESHOLD : BinFloat := roundQuotient 53 4 10

/-- The `float` division `(float)a / (float)b` of two integers: a binary32
value, precision 24. -/
def float32Div (a b : Nat) : BinFloat := roundQuotient 24 a b

/-! ## String distances -/

/-- The loop of `HammingDistance`: the number of positions where the strings
differ. -/
def hammingLoop : CString → CString → Int
  | a :: s, b :: t => (if a ≠ b then 1 else 0) + hammingLoop s t
  | _, _ => 0

/-- `int HammingDistance(const char *str1, const char *str2)`. -/
def HammingDistance (str1 str2 : CString) : Int :=
  if strlen str1 ≠ strlen str2 then -1 else hammingLoop str1 str2

/-- The three-way minimum taken for one matrix cell of `LevenshteinDistance`. -/
def levMin (delete_cost insert_cost subst_cost : Nat) : Nat :=
  let min := delete_cost
  let min := if insert_cost < min then insert_cost else min
  let min := if subst_cost < min then subst_cost else min
  min

/-- Cells `j, j+1, ...` of row `i` of the matrix: `c` is `s1[i-1]`, the first
list is `s2` from `j-1`, the second is row `i-1` from `j`, `diag` is
`matrix[i-1][j-1]` and `left` is `matrix[i][j-1]`. -/
def levRowCells (c : Byte) : CString → List Nat → Nat → Nat → List Nat
  | d :: s2, up :: prev, diag, left =>
    let cost := if c = d then 0 else 1
    let cell := levMin (up + 1) (left + 1) (diag + cost)
    cell :: levRowCells c s2 prev up cell
  | _, _, _, _ => []

/-- Row `i` of the matrix from row `i-1`: `matrix[i][0] = i`, then the cells. -/
def levRow (i : Nat) (c : Byte) (s2 : CString) (prev : List Nat) : List Nat :=
  i :: levRowCells c s2 prev.tail (prev.headD 0) i

/-- The outer loop of `LevenshteinDistance`: from row `i-1`, fill the rows for
the remaining characters of `s1` and return the last row. -/
def levRows : Nat → CString → CString → List Nat → List Nat
  | _, [], _, prev => prev
  | i, c :: s1, s2, prev => levRows (i + 1) s1 s2 (levRow i c s2 prev)

/-- `int LevenshteinDistance(const char *s1, const char *s2)`: row 0 of the
matrix is `0, 1, ..., len2`; the result is `matrix[len1][len2]`. -/
def LevenshteinDistance (s1 s2 : CString) : Nat :=
  (levRows 1 s1 s2 (List.range (strlen s2 + 1))).getLastD 0

/-- The first loop of `AreAnagrams`: `counts[str1[i]]++; counts[str2[i]]--`.
The array `counts` is given by its value at every index. -/
def anagramCounts : CString → CString → (Nat → Int) → (Nat → Int)
  | a :: s, b :: t, counts =>
    let counts1 : Nat → Int := fun k => if k = a.val then counts k + 1 else counts k
    let counts2 : Nat → Int := fun k => if k = b.val then counts1 k - 1 else counts1 k
    anagramCounts s t counts2
  | _, _, counts => counts

/-- `int AreAnagrams(const char *str1, const char *str2)`. -/
def AreAnagrams (str1 str2 : CString) : Bool :=
  if strlen str1 ≠ strlen str2 then false
  else (List.range 256).all (fun i => anagramCounts str1 str2 (fun _ => 0) i = 0)

/-! ## FindSimilarCommands -/

/-- The Hamming test of `FindSimilarCommands`: equal lengths and
`distance >= 0 && distance <= strlen(cmd) * 0.5`. -/
def hammingRule (cmd entry : CString) : Bool :=
  if strlen cmd = strlen entry then
    let distance := HammingDistance cmd entry
    decide (0 ≤ distance) &&
      BinFloat.le (BinFloat.ofNat distance.toNat) (BinFloat.mul (BinFloat.ofNat (strlen cmd)) half)
  else false

/-- The Levenshtein test of `FindSimilarCommands`:
`(float)distance / (float)fmax(strlen(cmd), strlen(entry)) <= LEVENSHTEIN_THRESHOLD`. -/
def levenshteinRule (cmd entry : CString) : Bool :=
  let distance := LevenshteinDistance cmd entry
  let normalized_distance := float32Div distance (max (strlen cmd) (strlen entry))
  BinFloat.le normalized_distance LEVENSHTEIN_THRESHOLD

/-- The anagram test of `FindSimilarCommands`. -/
def anagramRule (cmd entry : CString) : Bool := AreAnagrams cmd entry

/-- The substring test of `FindSimilarCommands`: `strstr(entry, cmd) != NULL`. -/
def substringRule (cmd entry : CString) : Bool := (strstr entry cmd).isSome

/-- The body of the loop of `FindSimilarCommands` for one table entry: `true`
when the entry is appended to the recommendations. -/
def entryMatches (cmd entry : CString) : Bool :=
  if strlen entry < 2 then false
  else if hammingRule cmd entry then true
  else if levenshteinRule cmd entry then true
  else if anagramRule cmd entry then true
  else if substringRule cmd entry then true
  else false

/-- The loop of `FindSimilarCommands` over the remaining table entries, with the
recommendations collected so far. -/
def findSimilarLoop (cmd : CString) : List CString → List CString → List CString
  | [], recommendations => recommendations
  | entry :: rest, recommendations =>
    if recommendations.length < MAX_RECOMMENDATIONS then
      if entryMatches cmd entry then findSimilarLoop cmd rest (recommendations ++ [entry])
      else findSimilarLoop cmd rest recommendations
    else recommendations

/-- `void FindSimilarCommands(const char *cmd, char **recommendations,
int *recommendationCount)` over the command table `cmdTable`. -/
def FindSimilarCommands (cmd : CString) (cmdTable : List CString) : List CString :=
  if cmd = [] then [] else findSimilarLoop cmd cmdTable []

/-! ## JoinUserRecommendation and TokenizeUserInput -/

/-- `void JoinUserRecommendation(char *recommendation, char **tokens,
int tokenCount, char *newCommand)`: `strcpy` of the recommendation, then for
`i = 1 .. tokenCount - 1` a `strcat` of one space and of `tokens[i]`. -/
def JoinUserRecommendation (recommendation : CString) (tokens : List CString) : CString :=
  tokens.tail.foldl (fun newCommand token => (newCommand ++ [32]) ++ token) recommendation

/-- The successive results of `strtok(command, delims)`, `strtok(NULL, delims)`,
and so on until NULL: `cur` holds the bytes of the token being scanned. -/
def strtokLoop (delims : List Byte) : CString → CString → List CString
  | [], cur => if cur = [] then [] else [cur]
  | c :: rest, cur =>
    if c ∈ delims then
      if cur = [] then strtokLoop delims rest [] else cur :: strtokLoop delims rest []
    else strtokLoop delims rest (cur ++ [c])

/-- `void TokenizeUserInput(char *command, char **tokens, int *tokenCount)`:
the tokens between runs of space and tab, at most `MAX_CMD_LENGTH - 1` of them. -/
def TokenizeUserInput (command : CString) : List CString :=
  (strtokLoop [32, 9] command []).take (MAX_CMD_LENGTH - 1)

/-! ## DeleteDuplicatedRecommendations -/

/-- The inner loop `for (j = i + 1; j < count; j++)` of
`DeleteDuplicatedRecommendations`.  When `recommendations[i]` equals
`recommendations[j]` the elements after `j` are shifted down by one, the count
drops by one and `j--; j++` leaves `j` where it is.  Every iteration either
advances `j` or shortens the list, so `fuel` bounds the iterations. -/
def dedupInner (i : Nat) : Nat → List CString → Nat → List CString
  | 0, recommendations, _ => recommendations
  | fuel + 1, recommendations, j =>
    if j < recommendations.length then
      if recommendations.getD i [] = recommendations.getD j [] then
        dedupInner i fuel (recommendations.eraseIdx j) j
      else dedupInner i fuel recommendations (j + 1)
    else recommendations

/-- The outer loop `for (i = 0; i < count; i++)` of
`DeleteDuplicatedRecommendations`. -/
def dedupOuter : Nat → List CString → Nat → List CString
  | 0, recommendations, _ => recommendations
  | fuel + 1, recommendations, i =>
    if i < recommendations.length then
      dedupOuter fuel (dedupInner i recommendations.length recommendations (i + 1)) (i + 1)
    else recommendations

/-- `void DeleteDuplicatedRecommendations(char **recommendations,
int *recommendationCount)`: the array and its count afterwards.  Neither loop
can run more often than there are elements. -/
def DeleteDuplicatedRecommendations (recommendations : List CString) : List CString :=
  dedupOuter recommendations.length recommendations 0

/-- The first occurrence of every distinct string, in the order of the list:
what the specification asks of the deduplicator. -/
def keepFirstOccurrences : List CString → List CString
  | [] => []
  | x :: rest => x :: (keepFirstOccurrences rest).filter (fun y => decide (y ≠ x))

/-! ## The interactive dialogue of `main` -/

/-- The C library `tolower` on one byte, in the C locale. -/
def tolower (c : Byte) : Byte := if 65 ≤ c.val ∧ c.val ≤ 90 then c + 32 else c

/-- `int IsYesResponse(const char *response)`. -/
def IsYesResponse (response : CString) : Bool :=
  let lowerResponse := response.map tolower
  lowerResponse = cstr "y" || lowerResponse = cstr "yes" || lowerResponse = cstr "yeah" ||
    lowerResponse = cstr "yep" || lowerResponse = cstr "sure" || lowerResponse = cstr "ok" ||
    lowerResponse = cstr "okay"

/-- `int IsNoResponse(const char *response)`. -/
def IsNoResponse (response : CString) : Bool :=
  let lowerResponse := response.map tolower
  lowerResponse = cstr "n" || lowerResponse = cstr "no" || lowerResponse = cstr "nope" ||
    lowerResponse = cstr "nah"

/-- `userInput[strcspn(userInput, "\n")] = 0`: cut the line at its first
newline. -/
def stripNewline (userInput : CString) : CString := userInput.takeWhile (fun c => decide (c ≠ 10))

/-- How the recommendation dialogue of `main` ends. -/
inductive DialogueOutcome where
  /-- A yes to candidate `i`: `newCommand` was built by `JoinUserRecommendation`
  and `ExecuteCommand` is called once, on `newTokens`. -/
  | Accepted (i : Nat) (newCommand : CString) (newTokens : List CString)
  /-- The loop ran past the last candidate: nothing is executed. -/
  | ExhaustedNo
  /-- The call of `fgets` returned NULL: `main` cleans up and returns 0. -/
  | Eof
  deriving DecidableEq

/-- The loop `for (int i = 0; i < recommendationCount; i++)` of `main` from
index `i` on.  `responses` are the lines that the successive calls of `fgets`
return; after the last of them `fgets` returns NULL. -/
def recommendationLoop (recommendations tokens : List CString) :
    List CString → Nat → DialogueOutcome
  | [], i => if i < recommendations.length then DialogueOutcome.Eof else DialogueOutcome.ExhaustedNo
  | line :: responses, i =>
    if i < recommendations.length then
      let userInput := stripNewline line
      if IsYesResponse userInput then
        let newCommand := JoinUserRecommendation (recommendations.getD i []) tokens
        DialogueOutcome.Accepted i newCommand (TokenizeUserInput newCommand)
      else if IsNoResponse userInput then recommendationLoop recommendations tokens responses (i + 1)
      else recommendationLoop recommendations tokens responses i
    else DialogueOutcome.ExhaustedNo

/-! ## The command table: LoadCommands -/

/-- `#define MAX_CMDS 2048` -/
def MAX_CMDS : Nat := 2048

/-- The C library `strcmp` on unsigned bytes.  C fixes only the sign of the
result; it is -1, 0 or 1 here. -/
def strcmp : CString → CString → Int
  | [], [] => 0
  | [], _ :: _ => -1
  | _ :: _, [] => 1
  | a :: s, b :: t => if a < b then -1 else if b < a then 1 else strcmp s t

/-- The `d_type` value `DT_REG` of `dirent.h`. -/
def DT_REG : Nat := 8

/-- The `d_type` value `DT_LNK` of `dirent.h`. -/
def DT_LNK : Nat := 10

/-- What `LoadCommands` reads of one `struct dirent`: its name, its type, and
whether `access(fullPath, X_OK) == 0` holds for it. -/
structure DirEntry where
  d_name : CString
  d_type : Nat
  executable : Bool
  deriving DecidableEq

/-- The test of `LoadCommands` on one directory entry: a regular file or a
symbolic link, and executable. -/
def isExecutableFile (entry : DirEntry) : Bool :=
  (decide (entry.d_type = DT_REG) || decide (entry.d_type = DT_LNK)) && entry.executable

/-- The inner loop `while ((entry = readdir(dirp)) != NULL && cmdTable.count <
MAX_CMDS)` of `LoadCommands` over the entries of one directory. -/
def readdirLoop : List DirEntry → List CString → List CString
  | [], commands => commands
  | entry :: rest, commands =>
    if commands.length < MAX_CMDS then
      if isExecutableFile entry then readdirLoop rest (commands ++ [entry.d_name])
      else readdirLoop rest commands
    else commands

/-- The outer loop `while (dir != NULL && cmdTable.count < MAX_CMDS)` of
`LoadCommands` over the directories of PATH: `none` is a directory that
`opendir` cannot open, `some entries` one that `readdir` lists as `entries`. -/
def pathLoop : List (Option (List DirEntry)) → List CString → List CString
  | [], commands => commands
  | dir :: rest, commands =>
    if commands.length < MAX_CMDS then
      match dir with
      | none => pathLoop rest commands
      | some entries => pathLoop rest (readdirLoop entries commands)
    else commands

/-- The exchange of `commands[i]` and `commands[j]` through `temp`. -/
def swapCommands (commands : List CString) (i j : Nat) : List CString :=
  (commands.set i (commands.getD j [])).set j (commands.getD i [])

/-- The inner loop `for (j = i + 1; j < cmdTable.count; j++)` of the sort in
`LoadCommands`, from `j` on with `n` iterations left. -/
def sortInner (i : Nat) : Nat → Nat → List CString → List CString
  | 0, _, commands => commands
  | n + 1, j, commands =>
    sortInner i n (j + 1)
      (if strcmp (commands.getD i []) (commands.getD j []) > 0 then swapCommands commands i j
       else commands)

/-- The outer loop `for (i = 0; i < cmdTable.count; i++)` of the sort in
`LoadCommands`, from `i` on with `n` iterations left. -/
def sortOuter : Nat → Nat → List CString → List CString
  | 0, _, commands => commands
  | n + 1, i, commands =>
    sortOuter n (i + 1) (sortInner i (commands.length - (i + 1)) (i + 1) commands)

/-- The sort of `LoadCommands`. -/
def sortCommands (commands : List CString) : List CString :=
  sortOuter commands.length 0 commands

/-- One step `if (cmdTable.count < MAX_CMDS) cmdTable.commands[cmdTable.count++]
= strdup(name)` of `LoadCommands`. -/
def addBuiltIn (commands : List CString) (name : CString) : List CString :=
  if commands.length < MAX_CMDS then commands ++ [name] else commands

/-- The built-in command names in the order `LoadCommands` appends them. -/
def builtInCommands : List CString :=
  [cstr "exit", cstr "help", cstr "clear", cstr "list", cstr "history"]

/-- `void LoadCommands()`: the table `cmdTable` it builds from the directories
of PATH. -/
def LoadCommands (dirs : List (Option (List DirEntry))) : List CString :=
  let commands := sortCommands (pathLoop dirs [])
  let commands := addBuiltIn commands (cstr "exit")
  let commands := addBuiltIn commands (cstr "help")
  let commands := addBuiltIn commands (cstr "clear")
  let commands := addBuiltIn commands (cstr "list")
  addBuiltIn commands (cstr "history")

/-- The names of the executable files of the directories of PATH, in the order
in which the two loops of `LoadCommands` meet them. -/
def discoveredNames (dirs : List (Option (List DirEntry))) : List CString :=
  (dirs.map (fun dir =>
    match dir with
    | none => []
    | some entries => (entries.filter isExecutableFile).map DirEntry.d_name)).flatten

/-! ## ExecuteCommand -/

/-- `int IsCommandInTable(const char *cmd)`. -/
def IsCommandInTable (cmdTable : List CString) (cmd : CString) : Bool :=
  if cmd = [] then false
  else cmdTable.any (fun entry => decide (strcmp entry cmd = 0))

/-- `int IsBuiltInCommand(const char *cmd)`. -/
def IsBuiltInCommand (cmd : CString) : Bool :=
  if cmd = [] then false
  else decide (strcmp cmd (cstr "exit") = 0) || decide (strcmp cmd (cstr "help") = 0) ||
    decide (strcmp cmd (cstr "clear") = 0) || decide (strcmp cmd (cstr "list") = 0) ||
    decide (strcmp cmd (cstr "history") = 0)

/-- What a call of `ExecuteCommand` does besides returning. -/
inductive ExecEffect where
  /-- Nothing. -/
  | Nothing
  /-- The call of `PrintHelpMessage`. -/
  | Help
  /-- The escape sequence that clears the screen is printed. -/
  | Clear
  /-- The call of `ListCommandsTable`. -/
  | ListCommands
  /-- The history list is printed. -/
  | History
  /-- The call of `fork` failed and `perror` reports it. -/
  | ForkError
  /-- A child process was created, it called `execvp(tokens[0], tokens)`, and
  `waitpid` returned with `status`. -/
  | Spawned (argv : List CString) (status : Int)
  deriving DecidableEq

/-- `int ExecuteCommand(char **tokens, int tokenCount)` in the shell process:
the returned value and the effect.  `fork` is `none` when the call of `fork`
returns a negative value and `some status` when it creates a child that
`waitpid` reports as `status`; the branch `pid == 0` runs in the child, which
never returns from it. -/
def ExecuteCommand (cmdTable : List CString) (fork : Option Int) (tokens : List CString) :
    Int × ExecEffect :=
  match tokens with
  | [] => (0, ExecEffect.Nothing)
  | cmd :: _ =>
    if strcmp cmd (cstr "exit") = 0 then (1, ExecEffect.Nothing)
    else if strcmp cmd (cstr "help") = 0 then (0, ExecEffect.Help)
    else if strcmp cmd (cstr "clear") = 0 then (0, ExecEffect.Clear)
    else if strcmp cmd (cstr "list") = 0 then (0, ExecEffect.ListCommands)
    else if strcmp cmd (cstr "history") = 0 then (0, ExecEffect.History)
    else if IsCommandInTable cmdTable cmd = false then (-1, ExecEffect.Nothing)
    else
      match fork with
      | none => (0, ExecEffect.ForkError)
      | some status => (0, ExecEffect.Spawned tokens status)

/-! ## One iteration of the loop of `main` -/

/-- A message that the loop of `main` prints itself. -/
inductive Printed where
  /-- `Command not found: %s` with `tokens[0]`. -/
  | CommandNotFound (token : CString)
  /-- `No similar commands found. Please try again.` -/
  | NoSimilarCommands
  /-- `Found %d possible command%s:` with the count. -/
  | Found (count : Nat)
  /-- `Did you mean: "..."? [y/n]` with the candidate and the arguments. -/
  | DidYouMean (recommendation : CString) (arguments : List CString)
  /-- The newline printed when `fgets` returns NULL. -/
  | Newline
  /-- `Executing: %s` with the new command line. -/
  | Executing (newCommand : CString)
  /-- `Please enter 'y' or 'n'.` -/
  | PleaseEnter
  deriving DecidableEq

/-- What the loop `for (int i = 0; i < recommendationCount; i++)` of `main`
prints, from index `i` on: the same loop as `recommendationLoop`. -/
def recommendationLoopOutput (recommendations tokens : List CString) :
    List CString → Nat → List Printed
  | [], i =>
    if i < recommendations.length then
      [Printed.DidYouMean (recommendations.getD i []) tokens.tail, Printed.Newline]
    else []
  | line :: responses, i =>
    if i < recommendations.length then
      let userInput := stripNewline line
      Printed.DidYouMean (recommendations.getD i []) tokens.tail ::
        (if IsYesResponse userInput then
          [Printed.Executing (JoinUserRecommendation (recommendations.getD i []) tokens)]
        else if IsNoResponse userInput then
          recommendationLoopOutput recommendations tokens responses (i + 1)
        else
          Printed.PleaseEnter :: recommendationLoopOutput recommendations tokens responses i)
    else []

/-- How one iteration of `while (!should_exit)` leaves the loop of `main`. -/
inductive MainStep where
  /-- `should_exit` is still 0: the loop reads the next line. -/
  | Resume
  /-- The process ends and `main` returns `status`: either `should_exit` was
  set, the loop ends, and `main` runs `Cleanup` and returns 0, or the dialogue
  met the end of input and runs `Cleanup` and `return 0` on the spot. -/
  | Terminate (status : Int)
  deriving DecidableEq

/-- The result of one iteration of the loop of `main`: how the loop goes on,
what the iteration prints itself, the token sequences on which it calls
`ExecuteCommand`, in the order of the calls, and the effects of those calls. -/
structure MainIteration where
  step : MainStep
  printed : List Printed
  effects : List ExecEffect
  calls : List (List CString)
  deriving DecidableEq

/-- One iteration of `while (!should_exit)` in `main` for a line `input` that
`readline` returned, with the lines `responses` that `fgets` returns during the
dialogue. -/
def mainIteration (cmdTable : List CString) (fork : Option Int) (input : CString)
    (responses : List CString) : MainIteration :=
  if input = [] then ⟨MainStep.Resume, [], [], []⟩
  else
    let tokens := TokenizeUserInput input
    if tokens.length > 0 then
      let result := ExecuteCommand cmdTable fork tokens
      if result.1 = 1 then ⟨MainStep.Terminate 0, [], [result.2], [tokens]⟩
      else if result.1 = -1 then
        let notFound := Printed.CommandNotFound (tokens.getD 0 [])
        let recommendations := FindSimilarCommands (tokens.getD 0 []) cmdTable
        if recommendations.length = 0 then
          ⟨MainStep.Resume, [notFound, Printed.NoSimilarCommands], [result.2], [tokens]⟩
        else
          let recommendations := DeleteDuplicatedRecommendations recommendations
          let printed := [notFound, Printed.Found recommendations.length] ++
            recommendationLoopOutput recommendations tokens responses 0
          match recommendationLoop recommendations tokens responses 0 with
          | DialogueOutcome.Eof => ⟨MainStep.Terminate 0, printed, [result.2], [tokens]⟩
          | DialogueOutcome.ExhaustedNo => ⟨MainStep.Resume, printed, [result.2], [tokens]⟩
          | DialogueOutcome.Accepted _ _ newTokens =>
            let exec_result := ExecuteCommand cmdTable fork newTokens
            if exec_result.1 = 1 then
              ⟨MainStep.Terminate 0, printed, [result.2, exec_result.2], [tokens, newTokens]⟩
            else ⟨MainStep.Resume, printed, [result.2, exec_result.2], [tokens, newTokens]⟩
      else ⟨MainStep.Resume, [], [result.2], [tokens]⟩
    else ⟨MainStep.Resume, [], [], []⟩

/-! ## The edit distance of the specification -/

/-- The standard recursive edit distance of the specification, on the two
strings given back to front, so that the heads are the last characters: the
distance to or from the empty string is the length of the other string, and
otherwise it is the minimum of a deletion plus 1, an insertion plus 1 and a
substitution plus 0 when the last characters are equal and plus 1 when not. -/
def editDistanceRev : CString → CString → Nat
  | [], t => t.length
  | a :: s, [] => (a :: s).length
  | a :: s, b :: t =>
    min (editDistanceRev s (b :: t) + 1)
      (min (editDistanceRev (a :: s) t + 1) (editDistanceRev s t + if a = b then 0 else 1))

/-- The standard recursive edit distance of the specification between `s` and
`t`, taken on their last characters. -/
def editDistance (s t : CString) : Nat := editDistanceRev s.reverse t.reverse

/-- One single-character edit of the specification: the insertion, the deletion
or the substitution of one character at any position of the string. -/
inductive EditStep : CString → CString → Prop where
  | insert (before after : CString) (c : Byte) :
    EditStep (before ++ after) (before ++ c :: after)
  | delete (before after : CString) (c : Byte) :
    EditStep (before ++ c :: after) (before ++ after)
  | substitute (before after : CString) (c d : Byte) :
    EditStep (before ++ c :: after) (before ++ d :: after)

/-- A sequence of `n` single-character edits that transforms the first string
into the second. -/
inductive EditPath : CString → CString → Nat → Prop where
  | done (s : CString) : EditPath s s 0
  | step {s t u : CString} {n : Nat} : EditStep s t → EditPath t u n → EditPath s u (n + 1)

/-! ## The shape of the result of FindSimilarCommands -/

set_option maxRecDepth 8192

theorem findSimilarLoop_eq (cmd : CString) (cmdTable recommendations : List CString) :
    findSimilarLoop cmd cmdTable recommendations =
      recommendations ++ (cmdTable.filter (entryMatches cmd)).take
        (MAX_RECOMMENDATIONS - recommendations.length) := by
  induction cmdTable generalizing recommendations with
  | nil => simp [findSimilarLoop]
  | cons entry rest ih =>
    unfold findSimilarLoop
    by_cases hlen : recommendations.length < MAX_RECOMMENDATIONS
    · rw [if_pos hlen]
      by_cases hm : entryMatches cmd entry = true
      · rw [if_pos hm, ih, List.filter_cons_of_pos hm]
        have hsub : MAX_RECOMMENDATIONS - recommendations.length =
            (MAX_RECOMMENDATIONS - (recommendations ++ [entry]).length) + 1 := by
          simp only [List.length_append, List.length_singleton]; omega
        rw [hsub, List.take_succ_cons]
        simp
      · rw [if_neg hm, ih, List.filter_cons_of_neg hm]
    · rw [if_neg hlen]
      have hz : MAX_RECOMMENDATIONS - recommendations.length = 0 := by omega
      simp [hz]

theorem FindSimilarCommands_eq (cmd : CString) (cmdTable : List CString) (hcmd : cmd ≠ []) :
    FindSimilarCommands cmd cmdTable =
      (cmdTable.filter (entryMatches cmd)).take MAX_RECOMMENDATIONS := by
  simp [FindSimilarCommands, hcmd, findSimilarLoop_eq]

theorem FindSimilarCommands_nil (cmdTable : List CString) :
    FindSimilarCommands [] cmdTable = [] := by
  simp [FindSimilarCommands]

/-- An entry that passes the loop body is returned at the position given by the
number of matching entries before it, as long as that number is below the cap. -/
theorem FindSimilarCommands_includes (cmd : CString) (before after : List CString)
    (entry : CString) (hcmd : cmd ≠ []) (hm : entryMatches cmd entry = true)
    (hcap : (before.filter (entryMatches cmd)).length < MAX_RECOMMENDATIONS) :
    (FindSimilarCommands cmd (before ++ entry :: after))[(before.filter
      (entryMatches cmd)).length]? = some entry := by
  rw [FindSimilarCommands_eq cmd _ hcmd, List.filter_append, List.filter_cons_of_pos hm,
    List.getElem?_take_of_lt hcap]
  exact List.getElem?_append_right (Nat.le_refl _) |>.trans (by simp)

/-- Every returned entry passed the loop body. -/
theorem FindSimilarCommands_mem (cmd : CString) (cmdTable : List CString) (entry : CString)
    (h : entry ∈ FindSimilarCommands cmd cmdTable) :
    entry ∈ cmdTable ∧ entryMatches cmd entry = true := by
  by_cases hcmd : cmd = []
  · subst hcmd; simp [FindSimilarCommands_nil] at h
  · rw [FindSimilarCommands_eq cmd _ hcmd] at h
    exact List.mem_filter.mp (List.mem_of_mem_take h)

/-- C1: for every token and every command table, the result of
FindSimilarCommands is a sublist of the table: every table position contributes
at most one entry and the entries keep the order of the table. -/
theorem FindSimilarCommands_sublist (cmd : CString) (cmdTable : List CString) :
    List.Sublist (FindSimilarCommands cmd cmdTable) cmdTable := by
  by_cases hcmd : cmd = []
  · subst hcmd; simp [FindSimilarCommands_nil]
  · rw [FindSimilarCommands_eq cmd _ hcmd]
    exact (List.take_sublist _ _).trans (List.filter_sublist _)

/-- C2: FindSimilarCommands returns at most MAX_RECOMMENDATIONS = 100 entries,
and for a non-empty token with more than 100 matching table entries it returns
exactly the first 100 matching entries, in table order. -/
theorem FindSimilarCommands_cap (cmd : CString) (cmdTable : List CString) :
    (FindSimilarCommands cmd cmdTable).length ≤ 100 ∧
    (cmd ≠ [] → 100 < (cmdTable.filter (entryMatches cmd)).length →
      FindSimilarCommands cmd cmdTable = (cmdTable.filter (entryMatches cmd)).take 100 ∧
      (FindSimilarCommands cmd cmdTable).length = 100) := by
  constructor
  · by_cases hcmd : cmd = []
    · subst hcmd; simp [FindSimilarCommands_nil]
    · rw [FindSimilarCommands_eq cmd _ hcmd]
      simp [MAX_RECOMMENDATIONS]
  · intro hcmd hmore
    rw [FindSimilarCommands_eq cmd _ hcmd]
    refine ⟨rfl, ?_⟩
    simp only [MAX_RECOMMENDATIONS, List.length_take]
    omega

/-- C2 at a table of 150 copies of "ls" followed by "cd" and the token "ls":
101 and more entries match and exactly the first 100 are returned. -/
theorem FindSimilarCommands_cap_witness :
    cstr "ls" ≠ [] ∧
    100 < ((List.replicate 150 (cstr "ls") ++ [cstr "cd"]).filter
      (entryMatches (cstr "ls"))).length ∧
    FindSimilarCommands (cstr "ls") (List.replicate 150 (cstr "ls") ++ [cstr "cd"]) =
      ((List.replicate 150 (cstr "ls") ++ [cstr "cd"]).filter
        (entryMatches (cstr "ls"))).take 100 ∧
    (FindSimilarCommands (cstr "ls")
      (List.replicate 150 (cstr "ls") ++ [cstr "cd"])).length = 100 :=
  ⟨by decide, by decide,
    (FindSimilarCommands_cap (cstr "ls") (List.replicate 150 (cstr "ls") ++ [cstr "cd"])).2
      (by decide) (by decide)⟩

/-! ## The Hamming rule -/

theorem half_eq : half = ⟨4503599627370496, -53⟩ := by decide

theorem LEVENSHTEIN_THRESHOLD_eq : LEVENSHTEIN_THRESHOLD = ⟨7205759403792794, -54⟩ := by decide

theorem hammingLoop_nonneg (s t : CString) : 0 ≤ hammingLoop s t := by
  induction s generalizing t with
  | nil => simp [hammingLoop]
  | cons a s ih =>
    cases t with
    | nil => simp [hammingLoop]
    | cons b t =>
      have := ih t
      simp only [hammingLoop]
      split <;> omega

theorem hammingRule_iff (cmd entry : CString) :
    hammingRule cmd entry = true ↔
      strlen cmd = strlen entry ∧ 2 * hammingLoop cmd entry ≤ (strlen cmd : Int) := by
  unfold hammingRule
  by_cases hlen : strlen cmd = strlen entry
  · have h0 := hammingLoop_nonneg cmd entry
    simp only [hlen, if_true, HammingDistance, ne_eq, not_true_eq_false, if_false, true_and,
      BinFloat.le, BinFloat.ofNat, BinFloat.mul, half_eq, Bool.and_eq_true, decide_eq_true_eq]
    have hm : min (0 : Int) (0 + -53) = -53 := by decide
    rw [hm]
    have e1 : ((0 : Int) - -53).toNat = 53 := by decide
    have e2 : ((0 : Int) + -53 - -53).toNat = 0 := by decide
    rw [e1, e2]
    constructor
    · rintro ⟨_, h⟩
      norm_num at h
      omega
    · intro h
      refine ⟨h0, ?_⟩
      norm_num
      omega
  · simp [hlen]

theorem entryMatches_iff (cmd entry : CString) :
    entryMatches cmd entry = true ↔
      2 ≤ strlen entry ∧ (hammingRule cmd entry = true ∨ levenshteinRule cmd entry = true ∨
        anagramRule cmd entry = true ∨ substringRule cmd entry = true) := by
  unfold entryMatches
  by_cases h2 : strlen entry < 2
  · simp only [h2, if_true]
    constructor
    · intro h; cases h
    · rintro ⟨h, _⟩; omega
  · have h2' : 2 ≤ strlen entry := by omega
    simp only [h2, if_false, h2', true_and]
    cases hammingRule cmd entry <;> cases levenshteinRule cmd entry <;>
      cases anagramRule cmd entry <;> cases substringRule cmd entry <;> simp

/-- C3: an entry of the same length n >= 2 as the token whose Hamming distance
to the token is at most floor(n / 2) is returned by FindSimilarCommands, at the
position given by the number of matching entries before it, provided fewer than
100 matching entries precede it. -/
theorem FindSimilarCommands_hamming (cmd entry : CString) (before after : List CString)
    (hcmd : cmd ≠ []) (hlen : strlen entry = strlen cmd) (h2 : 2 ≤ strlen entry)
    (hd : HammingDistance cmd entry ≤ ((strlen entry / 2 : Nat) : Int))
    (hcap : (before.filter (entryMatches cmd)).length < 100) :
    (FindSimilarCommands cmd (before ++ entry :: after))[(before.filter
      (entryMatches cmd)).length]? = some entry := by
  apply FindSimilarCommands_includes cmd before after entry hcmd _ hcap
  rw [entryMatches_iff]
  refine ⟨h2, Or.inl ?_⟩
  rw [hammingRule_iff]
  refine ⟨hlen.symm, ?_⟩
  simp only [HammingDistance, hlen, ne_eq, not_true_eq_false, if_false] at hd
  omega

/-- C3 at the token "pyhton" and the table entry "python" (length 6, Hamming
distance 2, floor(6 / 2) = 3), after the non-matching entry "ls". -/
theorem FindSimilarCommands_hamming_witness :
    HammingDistance (cstr "pyhton") (cstr "python") = 2 ∧
    (FindSimilarCommands (cstr "pyhton")
      ([cstr "ls"] ++ cstr "python" :: [cstr "zip"]))[(List.filter
        (entryMatches (cstr "pyhton")) [cstr "ls"]).length]? = some (cstr "python") :=
  ⟨by decide,
    FindSimilarCommands_hamming (cstr "pyhton") (cstr "python") [cstr "ls"] [cstr "zip"]
      (by decide) (by decide) (by decide) (by decide) (by decide)⟩

/-- C4, the boundary: the token "mdr" and the table entry "mkdir" have
Levenshtein distance 2 and greater length 5, so the normalized distance is 2/5
and 5 * 2 <= 2 * 5; the `float` quotient 13421773 / 2^25 is greater than the
`double` threshold, the Levenshtein rule fails and the entry is not returned. -/
theorem FindSimilarCommands_levenshtein_boundary :
    LevenshteinDistance (cstr "mdr") (cstr "mkdir") = 2 ∧
    max (strlen (cstr "mdr")) (strlen (cstr "mkdir")) = 5 ∧
    float32Div 2 5 = ⟨13421773, -25⟩ ∧
    BinFloat.le (float32Div 2 5) LEVENSHTEIN_THRESHOLD = false ∧
    levenshteinRule (cstr "mdr") (cstr "mkdir") = false ∧
    FindSimilarCommands (cstr "mdr") [cstr "mkdir"] = [] := by
  refine ⟨by decide, by decide, by decide, by decide, by decide, by decide⟩

/-! ## The float quotient against the double threshold -/

theorem normalizeQuotient_up (p : Nat) (hp : 1 ≤ p) (fuel a b : Nat) (e : Int) (s : Nat)
    (hs : 2 ^ (p - 1) * b ≤ a * 2 ^ s) (hfuel : s ≤ fuel) (hub : a < 2 ^ p * b) :
    ∃ i : Nat, normalizeQuotient p fuel a b e = (a * 2 ^ i, b, e - i) ∧
      2 ^ (p - 1) * b ≤ a * 2 ^ i ∧ a * 2 ^ i < 2 ^ p * b := by
  have hpow : 2 ^ p = 2 * 2 ^ (p - 1) := by
    obtain ⟨k, rfl⟩ : ∃ k, p = k + 1 := ⟨p - 1, by omega⟩
    simp [pow_succ, Nat.mul_comm]
  induction fuel generalizing a e s with
  | zero =>
    have hs0 : s = 0 := by omega
    subst hs0
    exact ⟨0, by simp [normalizeQuotient], by simpa using hs, by simpa using hub⟩
  | succ fuel ih =>
    unfold normalizeQuotient
    by_cases h : a < 2 ^ (p - 1) * b
    · rw [if_pos h]
      obtain ⟨s1, rfl⟩ : ∃ s1, s = s1 + 1 := by
        cases s with
        | zero => simp at hs; omega
        | succ s1 => exact ⟨s1, rfl⟩
      have hs1 : 2 ^ (p - 1) * b ≤ 2 * a * 2 ^ s1 := by
        rw [pow_succ] at hs
        calc 2 ^ (p - 1) * b ≤ a * (2 ^ s1 * 2) := hs
          _ = 2 * a * 2 ^ s1 := by ring
      have hub1 : 2 * a < 2 ^ p * b := by
        rw [hpow, Nat.mul_assoc]
        omega
      obtain ⟨i, hi, hlo, hhi⟩ := ih (2 * a) (e - 1) s1 hs1 (by omega) hub1
      refine ⟨i + 1, ?_, ?_, ?_⟩
      · rw [hi]
        have e1 : 2 * a * 2 ^ i = a * 2 ^ (i + 1) := by rw [pow_succ]; ring
        have e2 : e - 1 - (i : Int) = e - ((i + 1 : Nat) : Int) := by push_cast; ring
        rw [e1, e2]
      · calc 2 ^ (p - 1) * b ≤ 2 * a * 2 ^ i := hlo
          _ = a * 2 ^ (i + 1) := by rw [pow_succ]; ring
      · calc a * 2 ^ (i + 1) = 2 * a * 2 ^ i := by rw [pow_succ]; ring
          _ < 2 ^ p * b := hhi
    · rw [if_neg h, if_neg (by omega)]
      exact ⟨0, by simp, by simpa using Nat.le_of_not_lt h, by simpa using hub⟩

/-- The `float` quotient of a distance `d` by a length `m` with `d / m >= 0.4`
(that is `2 * m <= 5 * d`) is greater than the `double` constant `0.4`: the
comparison `normalized_distance <= LEVENSHTEIN_THRESHOLD` is false, at the
boundary `d / m = 0.4` too. -/
theorem float32Div_le_threshold_false (d m : Nat) (hm : 0 < m) (hdm : d ≤ m)
    (h : 2 * m ≤ 5 * d) : BinFloat.le (float32Div d m) LEVENSHTEIN_THRESHOLD = false := by
  have hd : d ≠ 0 := by omega
  have hs : 2 ^ (24 - 1) * m ≤ d * 2 ^ (23 + m) := by
    have h1 : m < 2 ^ m := Nat.lt_two_pow m
    have h2 : (2 : Nat) ^ (23 + m) = 2 ^ 23 * 2 ^ m := pow_add 2 23 m
    rw [h2]
    calc 2 ^ (24 - 1) * m ≤ 2 ^ 23 * 2 ^ m := Nat.mul_le_mul_left _ (Nat.le_of_lt h1)
      _ = 1 * (2 ^ 23 * 2 ^ m) := (Nat.one_mul _).symm
      _ ≤ d * (2 ^ 23 * 2 ^ m) := Nat.mul_le_mul_right _ (by omega)
  have hub : d < 2 ^ 24 * m := by norm_num; omega
  obtain ⟨i, hN, hlo, hhi⟩ :=
    normalizeQuotient_up 24 (by norm_num) (24 + d + m) d m 0 (23 + m) hs (by omega) hub
  have hi : i ≤ 25 := by
    by_contra hcon
    have h26 : (2 : Nat) ^ 26 ≤ 2 ^ i := Nat.pow_le_pow_right (by norm_num) (by omega)
    have h3 : d * 2 ^ 26 ≤ d * 2 ^ i := Nat.mul_le_mul_left _ h26
    norm_num at h3 hhi
    omega
  unfold float32Div roundQuotient
  rw [if_neg hd]
  simp only [hN, LEVENSHTEIN_THRESHOLD_eq, BinFloat.le, decide_eq_false_iff_not, not_le]
  have hmin : min ((0 : Int) - (i : Int)) (-54) = -54 := by omega
  rw [hmin]
  have e1 : ((0 : Int) - (i : Int) - -54).toNat = 54 - i := by omega
  have e2 : ((-54 : Int) - -54).toNat = 0 := by decide
  rw [e1, e2]
  have hdiv := Nat.div_add_mod (d * 2 ^ i) m
  have hmod := Nat.mod_lt (d * 2 ^ i) hm
  have hq : 2 ^ 23 ≤ d * 2 ^ i / m := by
    rw [Nat.le_div_iff_mul_le hm]
    simpa using hlo
  have hM : d * 2 ^ i / m ≤ roundHalfEven (d * 2 ^ i) m := by
    unfold roundHalfEven
    simp only
    split_ifs <;> omega
  by_cases hi24 : i ≤ 24
  · have h30 : (2 : Nat) ^ 30 ≤ 2 ^ (54 - i) := Nat.pow_le_pow_right (by norm_num) (by omega)
    have h4 : 2 ^ 23 * 2 ^ 30 ≤ roundHalfEven (d * 2 ^ i) m * 2 ^ (54 - i) :=
      Nat.mul_le_mul (le_trans hq hM) h30
    norm_num at h4 ⊢
    omega
  · have hi25 : i = 25 := by omega
    subst hi25
    have hq2 : 13421772 ≤ d * 2 ^ 25 / m := by
      rw [Nat.le_div_iff_mul_le hm]
      norm_num
      omega
    have hM2 : 13421773 ≤ roundHalfEven (d * 2 ^ 25) m := by
      by_cases hqe : d * 2 ^ 25 / m = 13421772
      · unfold roundHalfEven
        simp only
        rw [hqe] at hdiv ⊢
        norm_num at hdiv
        have h2r : m < 2 * (d * 2 ^ 25 % m) := by
          norm_num
          omega
        rw [if_neg (by omega), if_pos h2r]
      · omega
    norm_num at hM2 ⊢
    omega

/-- The `float` quotient of a distance `d` by a length `m` of at most `2 ^ 24`
with `d / m < 0.4` (that is `5 * d < 2 * m`) is at most the `double` constant
`0.4`: the comparison `normalized_distance <= LEVENSHTEIN_THRESHOLD` is true. -/
theorem float32Div_le_threshold_true (d m : Nat) (hm : 0 < m) (hbound : m ≤ 2 ^ 24)
    (h : 5 * d < 2 * m) : BinFloat.le (float32Div d m) LEVENSHTEIN_THRESHOLD = true := by
  by_cases hd : d = 0
  · subst hd
    have h0 : float32Div 0 m = ⟨0, 0⟩ := by simp [float32Div, roundQuotient]
    rw [h0]
    decide
  have hs : 2 ^ (24 - 1) * m ≤ d * 2 ^ (23 + m) := by
    have h1 : m < 2 ^ m := Nat.lt_two_pow m
    have h2 : (2 : Nat) ^ (23 + m) = 2 ^ 23 * 2 ^ m := pow_add 2 23 m
    rw [h2]
    calc 2 ^ (24 - 1) * m ≤ 2 ^ 23 * 2 ^ m := Nat.mul_le_mul_left _ (Nat.le_of_lt h1)
      _ = 1 * (2 ^ 23 * 2 ^ m) := (Nat.one_mul _).symm
      _ ≤ d * (2 ^ 23 * 2 ^ m) := Nat.mul_le_mul_right _ (by omega)
  have hub : d < 2 ^ 24 * m := by norm_num; omega
  obtain ⟨i, hN, hlo, hhi⟩ :=
    normalizeQuotient_up 24 (by norm_num) (24 + d + m) d m 0 (23 + m) hs (by omega) hub
  have hi : 25 ≤ i := by
    by_contra hcon
    have h24 : (2 : Nat) ^ i ≤ 2 ^ 24 := Nat.pow_le_pow_right (by norm_num) (by omega)
    have h3 : d * 2 ^ i ≤ d * 2 ^ 24 := Nat.mul_le_mul_left _ h24
    norm_num at h3 hlo
    omega
  unfold float32Div roundQuotient
  rw [if_neg hd]
  simp only [hN, LEVENSHTEIN_THRESHOLD_eq, BinFloat.le, decide_eq_true_eq]
  have hdiv := Nat.div_add_mod (d * 2 ^ i) m
  have hmod := Nat.mod_lt (d * 2 ^ i) hm
  have hq : d * 2 ^ i / m < 2 ^ 24 := by
    rw [Nat.div_lt_iff_lt_mul hm]
    exact hhi
  have hM : roundHalfEven (d * 2 ^ i) m ≤ d * 2 ^ i / m + 1 := by
    unfold roundHalfEven
    simp only
    split_ifs <;> omega
  by_cases hi25 : i = 25
  · subst hi25
    have hmin : min ((0 : Int) - ((25 : Nat) : Int)) (-54) = -54 := by decide
    have e1 : ((0 : Int) - ((25 : Nat) : Int) - -54).toNat = 29 := by decide
    have e2 : ((-54 : Int) - -54).toNat = 0 := by decide
    rw [hmin, e1, e2]
    have hq2 : d * 2 ^ 25 / m ≤ 13421772 := by
      have : d * 2 ^ 25 / m < 13421773 := by
        rw [Nat.div_lt_iff_lt_mul hm]
        norm_num
        omega
      omega
    have hM2 : roundHalfEven (d * 2 ^ 25) m ≤ 13421772 := by
      by_cases hqe : d * 2 ^ 25 / m = 13421772
      · unfold roundHalfEven
        simp only
        rw [hqe] at hdiv ⊢
        norm_num at hdiv hbound
        have h2r : 2 * (d * 2 ^ 25 % m) < m := by
          norm_num
          omega
        rw [if_pos h2r]
      · omega
    norm_num at hM2 ⊢
    omega
  · have hM3 : roundHalfEven (d * 2 ^ i) m ≤ 2 ^ 24 := by omega
    by_cases hi54 : i ≤ 54
    · have hmin : min ((0 : Int) - (i : Int)) (-54) = -54 := by omega
      have e1 : ((0 : Int) - (i : Int) - -54).toNat = 54 - i := by omega
      have e2 : ((-54 : Int) - -54).toNat = 0 := by decide
      rw [hmin, e1, e2]
      have h28 : (2 : Nat) ^ (54 - i) ≤ 2 ^ 28 := Nat.pow_le_pow_right (by norm_num) (by omega)
      have h4 : roundHalfEven (d * 2 ^ i) m * 2 ^ (54 - i) ≤ 2 ^ 24 * 2 ^ 28 :=
        Nat.mul_le_mul hM3 h28
      norm_num at h4 ⊢
      omega
    · have hmin : min ((0 : Int) - (i : Int)) (-54) = 0 - (i : Int) := by omega
      have e1 : ((0 : Int) - (i : Int) - (0 - (i : Int))).toNat = 0 := by omega
      have e2 : ((-54 : Int) - (0 - (i : Int))).toNat = i - 54 := by omega
      rw [hmin, e1, e2]
      have h1 : 1 ≤ 2 ^ (i - 54) := Nat.one_le_two_pow
      have h4 : 7205759403792794 * 1 ≤ 7205759403792794 * 2 ^ (i - 54) :=
        Nat.mul_le_mul_left _ h1
      norm_num at hM3 h4 ⊢
      omega

/-- The Levenshtein test of `FindSimilarCommands` fails whenever the distance
divided by the greater length is 0.4 or more, the boundary 0.4 included. -/
theorem levenshteinRule_eq_false (cmd entry : CString)
    (hm : 0 < max (strlen cmd) (strlen entry))
    (hdm : LevenshteinDistance cmd entry ≤ max (strlen cmd) (strlen entry))
    (h : 2 * max (strlen cmd) (strlen entry) ≤ 5 * LevenshteinDistance cmd entry) :
    levenshteinRule cmd entry = false := by
  unfold levenshteinRule
  exact float32Div_le_threshold_false _ _ hm hdm h

/-- The Levenshtein test of `FindSimilarCommands` succeeds whenever the distance
divided by the greater length is below 0.4, for lengths up to `2 ^ 24`. -/
theorem levenshteinRule_eq_true (cmd entry : CString)
    (hm : 0 < max (strlen cmd) (strlen entry))
    (hbound : max (strlen cmd) (strlen entry) ≤ 2 ^ 24)
    (h : 5 * LevenshteinDistance cmd entry < 2 * max (strlen cmd) (strlen entry)) :
    levenshteinRule cmd entry = true := by
  unfold levenshteinRule
  exact float32Div_le_threshold_true _ _ hm hbound h

/-! ## The substring rule -/

theorem strstr_isSome_iff (haystack needle : CString) :
    (strstr haystack needle).isSome = true ↔ needle <:+: haystack := by
  induction haystack with
  | nil =>
    unfold strstr
    by_cases h : needle.isPrefixOf [] = true
    · simp only [h, if_true, Option.isSome_some, true_iff]
      exact (List.isPrefixOf_iff_prefix.mp h).isInfix
    · simp only [h, if_false, Option.isSome_none, false_iff, Bool.false_eq_true]
      intro hin
      apply h
      rw [List.isPrefixOf_iff_prefix]
      have : needle = [] := List.eq_nil_of_infix_nil hin
      subst this
      exact List.nil_prefix
  | cons c haystack ih =>
    unfold strstr
    rw [List.infix_cons_iff]
    by_cases h : needle.isPrefixOf (c :: haystack) = true
    · simp only [h, if_true, Option.isSome_some, true_iff]
      exact Or.inl (List.isPrefixOf_iff_prefix.mp h)
    · simp only [h, if_false, ih, Bool.false_eq_true]
      constructor
      · exact Or.inr
      · rintro (hp | hi)
        · exact absurd (List.isPrefixOf_iff_prefix.mpr hp) h
        · exact hi

/-- C6: a table entry of length >= 2 that contains the non-empty token as a
contiguous substring is returned by FindSimilarCommands, provided fewer than 100
matching entries precede it; with the token "grep" and the table "egrep" alone,
the result is "egrep". -/
theorem FindSimilarCommands_substring :
    (∀ (cmd entry : CString) (before after : List CString), cmd ≠ [] → 2 ≤ strlen entry →
      cmd <:+: entry → (before.filter (entryMatches cmd)).length < 100 →
      (FindSimilarCommands cmd (before ++ entry :: after))[(before.filter
        (entryMatches cmd)).length]? = some entry) ∧
    FindSimilarCommands (cstr "grep") [cstr "egrep"] = [cstr "egrep"] := by
  refine ⟨?_, by decide⟩
  intro cmd entry before after hcmd h2 hsub hcap
  apply FindSimilarCommands_includes cmd before after entry hcmd _ hcap
  rw [entryMatches_iff]
  refine ⟨h2, Or.inr (Or.inr (Or.inr ?_))⟩
  unfold substringRule
  exact (strstr_isSome_iff entry cmd).mpr hsub

/-- C6 at the token "ls" and the table entry "false", which contains "ls" and
is matched by the substring rule only, after the matching entry "lsof". -/
theorem FindSimilarCommands_substring_witness :
    hammingRule (cstr "ls") (cstr "false") = false ∧
    levenshteinRule (cstr "ls") (cstr "false") = false ∧
    anagramRule (cstr "ls") (cstr "false") = false ∧
    (FindSimilarCommands (cstr "ls")
      ([cstr "lsof"] ++ cstr "false" :: []))[(List.filter
        (entryMatches (cstr "ls")) [cstr "lsof"]).length]? = some (cstr "false") :=
  ⟨by decide, by decide, by decide,
    FindSimilarCommands_substring.1 (cstr "ls") (cstr "false") [cstr "lsof"] []
      (by decide) (by decide) ⟨cstr "fa", cstr "e", by decide⟩ (by decide)⟩

/-! ## The anagram rule -/

theorem anagramCounts_val (s t : CString) (hlen : s.length = t.length) (counts : Nat → Int)
    (b : Byte) :
    anagramCounts s t counts b.val = counts b.val + s.count b - t.count b := by
  induction s generalizing t counts with
  | nil =>
    cases t with
    | nil => simp [anagramCounts]
    | cons c t => simp at hlen
  | cons a s ih =>
    cases t with
    | nil => simp at hlen
    | cons c t =>
      have hlen' : s.length = t.length := by simpa using hlen
      simp only [anagramCounts]
      rw [ih t hlen', List.count_cons, List.count_cons]
      have ha : (b.val = a.val) ↔ (a == b) = true := by
        rw [beq_iff_eq, Fin.val_inj]; exact eq_comm
      have hc : (b.val = c.val) ↔ (c == b) = true := by
        rw [beq_iff_eq, Fin.val_inj]; exact eq_comm
      by_cases h1 : (a == b) = true <;> by_cases h2 : (c == b) = true <;>
        simp only [ha, hc, h1, h2, if_true, if_false, Bool.false_eq_true] <;> push_cast <;> omega

theorem AreAnagrams_iff_perm (str1 str2 : CString) :
    AreAnagrams str1 str2 = true ↔ List.Perm str1 str2 := by
  unfold AreAnagrams strlen
  by_cases hlen : str1.length = str2.length
  · simp only [hlen, ne_eq, not_true_eq_false, if_false, List.all_eq_true, List.mem_range,
      decide_eq_true_eq]
    rw [List.perm_iff_count]
    constructor
    · intro h b
      have := h b.val b.isLt
      rw [anagramCounts_val str1 str2 hlen] at this
      omega
    · intro h i hi
      have := anagramCounts_val str1 str2 hlen (fun _ => 0) ⟨i, hi⟩
      simp only at this
      rw [this, h]
      omega
  · simp only [ne_eq, hlen, not_false_eq_true, if_true, Bool.false_eq_true, false_iff]
    intro hp
    exact hlen hp.length_eq

/-- C5: a table entry of length >= 2 that is an anagram of the token (a
permutation of its bytes: equal length, same multiset) is returned by
FindSimilarCommands, provided fewer than 100 matching entries precede it; with
the table "tac" alone, the token "cat" yields exactly "tac". -/
theorem FindSimilarCommands_anagram :
    (∀ (cmd entry : CString) (before after : List CString), 2 ≤ strlen entry →
      List.Perm cmd entry → (before.filter (entryMatches cmd)).length < 100 →
      (FindSimilarCommands cmd (before ++ entry :: after))[(before.filter
        (entryMatches cmd)).length]? = some entry) ∧
    FindSimilarCommands (cstr "cat") [cstr "tac"] = [cstr "tac"] := by
  refine ⟨?_, by decide⟩
  intro cmd entry before after h2 hperm hcap
  have hcmd : cmd ≠ [] := by
    intro h
    subst h
    have := hperm.length_eq
    simp [strlen] at h2 this
    omega
  apply FindSimilarCommands_includes cmd before after entry hcmd _ hcap
  rw [entryMatches_iff]
  refine ⟨h2, Or.inr (Or.inr (Or.inl ?_))⟩
  unfold anagramRule
  exact (AreAnagrams_iff_perm cmd entry).mpr hperm

/-- C5 at the token "cat" and the table entry "tac", which the Hamming and the
Levenshtein rule reject, after the matching entry "cut". -/
theorem FindSimilarCommands_anagram_witness :
    hammingRule (cstr "cat") (cstr "tac") = false ∧
    levenshteinRule (cstr "cat") (cstr "tac") = false ∧
    (FindSimilarCommands (cstr "cat")
      ([cstr "cut"] ++ cstr "tac" :: [cstr "ls"]))[(List.filter
        (entryMatches (cstr "cat")) [cstr "cut"]).length]? = some (cstr "tac") :=
  ⟨by decide, by decide,
    FindSimilarCommands_anagram.1 (cstr "cat") (cstr "tac") [cstr "cut"] [cstr "ls"]
      (by decide) (by decide) (by decide)⟩

/-! ## The token "ab" against entries of length 2 -/

theorem cstr_ab : cstr "ab" = [97, 98] := by decide

theorem cstr_ba : cstr "ba" = [98, 97] := by decide

theorem hammingLoop_ab (x y : Byte) :
    hammingLoop [97, 98] [x, y] = (if (97 : Byte) ≠ x then 1 else 0) +
      ((if (98 : Byte) ≠ y then 1 else 0) + 0) := by
  simp [hammingLoop]

theorem levenshteinRule_ab_false (x y : Byte) (hx : (97 : Byte) ≠ x) (hy : (98 : Byte) ≠ y) :
    levenshteinRule [97, 98] [x, y] = false := by
  have hd : LevenshteinDistance [97, 98] [x, y] = 2 := by
    by_cases h1 : y = 97
    · subst h1
      by_cases h2 : x = 98
      · subst h2
        decide
      · have h2' : ¬ (98 : Byte) = x := fun h => h2 h.symm
        simp [LevenshteinDistance, levRows, levRow, levRowCells, levMin, strlen, List.range,
          List.range.loop, hx, h2']
    · have h1' : ¬ (97 : Byte) = y := fun h => h1 h.symm
      by_cases h2 : x = 98
      · subst h2
        simp [LevenshteinDistance, levRows, levRow, levRowCells, levMin, strlen, List.range,
          List.range.loop, hy, h1']
      · have h2' : ¬ (98 : Byte) = x := fun h => h2 h.symm
        simp [LevenshteinDistance, levRows, levRow, levRowCells, levMin, strlen, List.range,
          List.range.loop, hx, hy, h1', h2']
  have hmax : max (strlen ([97, 98] : CString)) (strlen [x, y]) = 2 := by simp [strlen]
  unfold levenshteinRule
  rw [hd, hmax]
  decide

theorem entryMatches_ab_both (x y : Byte) (hx : (97 : Byte) ≠ x) (hy : (98 : Byte) ≠ y)
    (hba : ([x, y] : CString) ≠ [98, 97]) : entryMatches [97, 98] [x, y] = false := by
  rw [Bool.eq_false_iff]
  intro h
  rw [entryMatches_iff] at h
  rcases h with ⟨_, h | h | h | h⟩
  · rw [hammingRule_iff, hammingLoop_ab] at h
    simp [hx, hy, strlen] at h
  · rw [levenshteinRule_ab_false x y hx hy] at h
    cases h
  · unfold anagramRule at h
    rw [AreAnagrams_iff_perm] at h
    have h97 : (97 : Byte) ∈ ([x, y] : CString) := h.subset (by simp)
    have h98 : (98 : Byte) ∈ ([x, y] : CString) := h.subset (by simp)
    simp only [List.mem_cons, List.mem_singleton, List.not_mem_nil, or_false] at h97 h98
    rcases h97 with h97 | h97
    · exact hx h97
    · rcases h98 with h98 | h98
      · apply hba
        rw [← h97, ← h98]
      · exact hy h98
  · unfold substringRule at h
    rw [strstr_isSome_iff] at h
    have := h.eq_of_length (by simp)
    simp only [List.cons.injEq, and_true] at this
    exact hx this.1

/-- C7, as stated, fails at the entry "ba": it has length 2 and differs from
"ab" in both positions, yet FindSimilarCommands returns it for the token "ab". -/
theorem FindSimilarCommands_ab_counterexample :
    ¬ (∀ entry : CString, strlen entry = 2 → HammingDistance (cstr "ab") entry = 2 →
      entry ∉ FindSimilarCommands (cstr "ab") [entry]) := by
  intro h
  exact h (cstr "ba") (by decide) (by decide) (by decide)

/-- C7, amended: for the token "ab" and a table entry of length 2, an entry that
differs from "ab" in both positions and is not "ba" is never returned; the
entry "ba", an anagram of "ab", is returned; and an entry that differs in
exactly one position is returned (provided fewer than 100 matching entries
precede it). -/
theorem FindSimilarCommands_ab (entry : CString) (hlen : strlen entry = 2) :
    (HammingDistance (cstr "ab") entry = 2 → entry ≠ cstr "ba" →
      ∀ cmdTable : List CString, entry ∉ FindSimilarCommands (cstr "ab") cmdTable) ∧
    (entry = cstr "ba" → HammingDistance (cstr "ab") entry = 2 ∧
      anagramRule (cstr "ab") entry = true ∧
      ∀ before after : List CString, (before.filter (entryMatches (cstr "ab"))).length < 100 →
        (FindSimilarCommands (cstr "ab") (before ++ entry :: after))[(before.filter
          (entryMatches (cstr "ab"))).length]? = some entry) ∧
    (HammingDistance (cstr "ab") entry = 1 →
      ∀ before after : List CString, (before.filter (entryMatches (cstr "ab"))).length < 100 →
        (FindSimilarCommands (cstr "ab") (before ++ entry :: after))[(before.filter
          (entryMatches (cstr "ab"))).length]? = some entry) := by
  obtain ⟨x, y, rfl⟩ : ∃ x y, entry = [x, y] := by
    match entry, hlen with
    | [x, y], _ => exact ⟨x, y, rfl⟩
  have hHD : HammingDistance (cstr "ab") [x, y] = hammingLoop [97, 98] [x, y] := by
    simp [HammingDistance, cstr_ab, strlen]
  refine ⟨?_, ?_, ?_⟩
  · intro hd hba cmdTable hmem
    have hm := (FindSimilarCommands_mem _ _ _ hmem).2
    rw [hHD, hammingLoop_ab] at hd
    rw [cstr_ab] at hm
    rw [cstr_ba] at hba
    have hx : (97 : Byte) ≠ x := by
      intro h; rw [if_neg (not_not.mpr h)] at hd; split at hd <;> omega
    have hy : (98 : Byte) ≠ y := by
      intro h; rw [if_neg (not_not.mpr h)] at hd; split at hd <;> omega
    rw [entryMatches_ab_both x y hx hy hba] at hm
    cases hm
  · intro hba
    rw [hba]
    refine ⟨by decide, by decide, ?_⟩
    intro before after hcap
    exact FindSimilarCommands_includes _ before after _ (by decide) (by decide) hcap
  · intro hd before after hcap
    apply FindSimilarCommands_includes _ before after _ (by decide) _ hcap
    rw [entryMatches_iff]
    refine ⟨by simp [strlen], Or.inl ?_⟩
    rw [hammingRule_iff]
    simp only [cstr_ab, strlen, List.length_cons, List.length_nil, true_and]
    rw [hHD] at hd
    rw [hd]
    decide

/-- C7, amended, at the entries "xy" (both positions differ, not returned) and
"ax" (one position differs, returned). -/
theorem FindSimilarCommands_ab_witness :
    cstr "xy" ∉ FindSimilarCommands (cstr "ab") [cstr "ls", cstr "xy"] ∧
    (FindSimilarCommands (cstr "ab")
      ([cstr "ls"] ++ cstr "ax" :: []))[(List.filter
        (entryMatches (cstr "ab")) [cstr "ls"]).length]? = some (cstr "ax") :=
  ⟨(FindSimilarCommands_ab (cstr "xy") (by decide)).1 (by decide) (by decide)
      [cstr "ls", cstr "xy"],
    (FindSimilarCommands_ab (cstr "ax") (by decide)).2.2 (by decide) [cstr "ls"] []
      (by decide)⟩

/-! ## The token "gti" against the entry "git" -/

/-- C8, as stated, fails: with the table "git" alone, FindSimilarCommands
returns "git" for the token "gti". -/
theorem FindSimilarCommands_gti_counterexample :
    ¬ (cstr "git" ∉ FindSimilarCommands (cstr "gti") [cstr "git"]) := by
  decide

/-- C8, amended: for the token "gti" the entry "git" is rejected by the Hamming
rule (distance 2 of length 3), by the Levenshtein rule (distance 2, greater
length 3) and by the substring rule, but it is an anagram of the token, so
FindSimilarCommands returns it (provided fewer than 100 matching entries
precede it). -/
theorem FindSimilarCommands_gti :
    HammingDistance (cstr "gti") (cstr "git") = 2 ∧
    hammingRule (cstr "gti") (cstr "git") = false ∧
    LevenshteinDistance (cstr "gti") (cstr "git") = 2 ∧
    max (strlen (cstr "gti")) (strlen (cstr "git")) = 3 ∧
    levenshteinRule (cstr "gti") (cstr "git") = false ∧
    substringRule (cstr "gti") (cstr "git") = false ∧
    anagramRule (cstr "gti") (cstr "git") = true ∧
    ∀ before after : List CString, (before.filter (entryMatches (cstr "gti"))).length < 100 →
      (FindSimilarCommands (cstr "gti") (before ++ cstr "git" :: after))[(before.filter
        (entryMatches (cstr "gti"))).length]? = some (cstr "git") := by
  refine ⟨by decide, by decide, by decide, by decide, by decide, by decide, by decide, ?_⟩
  intro before after hcap
  exact FindSimilarCommands_includes _ before after _ (by decide) (by decide) hcap

/-- C8, amended, at the table "gcc", "git", "ls". -/
theorem FindSimilarCommands_gti_witness :
    (FindSimilarCommands (cstr "gti")
      ([cstr "gcc"] ++ cstr "git" :: [cstr "ls"]))[(List.filter
        (entryMatches (cstr "gti")) [cstr "gcc"]).length]? = some (cstr "git") :=
  FindSimilarCommands_gti.2.2.2.2.2.2.2 [cstr "gcc"] [cstr "ls"] (by decide)

/-! ## DeleteDuplicatedRecommendations -/

theorem dedupInner_eq (i fuel : Nat) (front back : List CString) (hi : i < front.length)
    (hfuel : back.length ≤ fuel) :
    dedupInner i fuel (front ++ back) front.length =
      front ++ back.filter (fun y => decide (y ≠ front.getD i [])) := by
  induction fuel generalizing front back with
  | zero =>
    have : back = [] := List.length_eq_zero.mp (by omega)
    subst this
    simp [dedupInner]
  | succ fuel ih =>
    cases back with
    | nil => simp [dedupInner]
    | cons x back =>
      have hj : front.length < (front ++ x :: back).length := by simp
      have hgi : (front ++ x :: back).getD i [] = front.getD i [] :=
        List.getD_append front (x :: back) [] i hi
      have hgj : (front ++ x :: back).getD front.length [] = x := by
        rw [List.getD_append_right front (x :: back) [] front.length (Nat.le_refl _)]
        simp
      have hback : back.length ≤ fuel := by simpa using hfuel
      unfold dedupInner
      rw [if_pos hj, hgi, hgj]
      by_cases hx : front.getD i [] = x
      · rw [if_pos hx]
        have he : (front ++ x :: back).eraseIdx front.length = front ++ back := by
          rw [List.eraseIdx_append_of_length_le (Nat.le_refl _)]
          simp
        rw [he, ih front back hi hback]
        have hdec : ¬ decide (x ≠ front.getD i []) = true := by
          rw [decide_eq_true_eq]; exact fun h => h hx.symm
        rw [List.filter_cons, if_neg hdec]
      · rw [if_neg hx]
        have hi' : i < (front ++ [x]).length := by simp; omega
        have h := ih (front ++ [x]) back hi' hback
        have hg : (front ++ [x]).getD i [] = front.getD i [] := List.getD_append front [x] [] i hi
        rw [hg] at h
        simp only [List.length_append, List.length_singleton, List.append_assoc,
          List.singleton_append] at h
        rw [h]
        have hx' : x ≠ front.getD i [] := fun h => hx h.symm
        have hdec : decide (x ≠ front.getD i []) = true := by
          rw [decide_eq_true_eq]; exact hx'
        rw [List.filter_cons, if_pos hdec]

theorem keepFirstOccurrences_filter (p : CString → Bool) (l : List CString) :
    keepFirstOccurrences (l.filter p) = (keepFirstOccurrences l).filter p := by
  induction l with
  | nil => simp [keepFirstOccurrences]
  | cons y l ih =>
    by_cases hp : p y = true
    · rw [List.filter_cons_of_pos hp]
      simp only [keepFirstOccurrences]
      rw [List.filter_cons_of_pos hp, ih, List.filter_filter, List.filter_filter]
      congr 1
      apply List.filter_congr
      intro z _
      exact Bool.and_comm _ _
    · rw [List.filter_cons_of_neg hp]
      simp only [keepFirstOccurrences]
      rw [List.filter_cons_of_neg hp, ih, List.filter_filter]
      apply List.filter_congr
      intro z _
      by_cases hz : z = y
      · subst hz; simp [hp]
      · simp [hz]

theorem dedupOuter_eq (fuel : Nat) (front back : List CString) (hfuel : back.length ≤ fuel) :
    dedupOuter fuel (front ++ back) front.length = front ++ keepFirstOccurrences back := by
  induction fuel generalizing front back with
  | zero =>
    have : back = [] := List.length_eq_zero.mp (by omega)
    subst this
    simp [dedupOuter, keepFirstOccurrences]
  | succ fuel ih =>
    cases back with
    | nil => simp [dedupOuter, keepFirstOccurrences]
    | cons x back =>
      have hi : front.length < (front ++ x :: back).length := by simp
      have hback : back.length ≤ fuel := by simpa using hfuel
      unfold dedupOuter
      rw [if_pos hi]
      have hin := dedupInner_eq front.length (front ++ x :: back).length (front ++ [x]) back
        (by simp) (by simp; omega)
      have hg : (front ++ [x]).getD front.length [] = x := by
        rw [List.getD_append_right front [x] [] front.length (Nat.le_refl _)]
        simp
      rw [hg] at hin
      simp only [List.length_append, List.length_singleton, List.append_assoc,
        List.singleton_append] at hin
      simp only [List.length_append, List.length_cons] at hin ⊢
      rw [hin]
      have hlen : (back.filter (fun y => decide (y ≠ x))).length ≤ fuel :=
        le_trans (List.length_filter_le _ _) hback
      have h := ih (front ++ [x]) (back.filter (fun y => decide (y ≠ x))) hlen
      simp only [List.length_append, List.length_singleton, List.append_assoc,
        List.singleton_append] at h
      rw [h, keepFirstOccurrences_filter]
      simp [keepFirstOccurrences]

theorem DeleteDuplicatedRecommendations_eq (recommendations : List CString) :
    DeleteDuplicatedRecommendations recommendations = keepFirstOccurrences recommendations := by
  have h := dedupOuter_eq recommendations.length [] recommendations (Nat.le_refl _)
  simpa [DeleteDuplicatedRecommendations] using h

theorem mem_keepFirstOccurrences (x : CString) (l : List CString) :
    x ∈ keepFirstOccurrences l ↔ x ∈ l := by
  induction l with
  | nil => simp [keepFirstOccurrences]
  | cons y l ih =>
    simp only [keepFirstOccurrences, List.mem_cons, List.mem_filter, ih, decide_eq_true_eq]
    by_cases h : x = y <;> simp [h]

theorem keepFirstOccurrences_nodup (l : List CString) : (keepFirstOccurrences l).Nodup := by
  induction l with
  | nil => simp [keepFirstOccurrences]
  | cons y l ih =>
    simp only [keepFirstOccurrences, List.nodup_cons, List.mem_filter, decide_eq_true_eq]
    exact ⟨fun h => h.2 rfl, ih.filter _⟩

theorem keepFirstOccurrences_sublist (l : List CString) :
    List.Sublist (keepFirstOccurrences l) l := by
  induction l with
  | nil => simp [keepFirstOccurrences]
  | cons y l ih =>
    simp only [keepFirstOccurrences]
    exact List.Sublist.cons₂ y ((List.filter_sublist _).trans ih)

/-- C9: DeleteDuplicatedRecommendations leaves the first occurrence of every
distinct string, in the original order: the result has no two equal elements,
has the same elements as the input, is a sublist of the input, and its length is
the number of distinct strings; the list a, b, a, c, b becomes a, b, c. -/
theorem DeleteDuplicatedRecommendations_spec (recommendations : List CString) :
    DeleteDuplicatedRecommendations recommendations = keepFirstOccurrences recommendations ∧
    (DeleteDuplicatedRecommendations recommendations).Nodup ∧
    (∀ x, x ∈ DeleteDuplicatedRecommendations recommendations ↔ x ∈ recommendations) ∧
    List.Sublist (DeleteDuplicatedRecommendations recommendations) recommendations ∧
    (DeleteDuplicatedRecommendations recommendations).length = recommendations.toFinset.card ∧
    (∀ a b c : CString, a ≠ b → a ≠ c → b ≠ c →
      DeleteDuplicatedRecommendations [a, b, a, c, b] = [a, b, c]) := by
  have hnd : (DeleteDuplicatedRecommendations recommendations).Nodup := by
    rw [DeleteDuplicatedRecommendations_eq]; exact keepFirstOccurrences_nodup _
  have hmem : ∀ x, x ∈ DeleteDuplicatedRecommendations recommendations ↔ x ∈ recommendations := by
    intro x; rw [DeleteDuplicatedRecommendations_eq]; exact mem_keepFirstOccurrences x _
  refine ⟨DeleteDuplicatedRecommendations_eq _, hnd, hmem, ?_, ?_, ?_⟩
  · rw [DeleteDuplicatedRecommendations_eq]; exact keepFirstOccurrences_sublist _
  · rw [← List.toFinset_card_of_nodup hnd]
    congr 1
    ext x
    simp [hmem]
  · intro a b c hab hac hbc
    rw [DeleteDuplicatedRecommendations_eq]
    simp [keepFirstOccurrences, List.filter, hab, hac, hbc, Ne.symm hab, Ne.symm hac, Ne.symm hbc]

/-- C9 at the strings "ls", "cat", "ls", "cp", "cat". -/
theorem DeleteDuplicatedRecommendations_witness :
    DeleteDuplicatedRecommendations [cstr "ls", cstr "cat", cstr "ls", cstr "cp", cstr "cat"] =
      [cstr "ls", cstr "cat", cstr "cp"] :=
  (DeleteDuplicatedRecommendations_spec []).2.2.2.2.2 (cstr "ls") (cstr "cat") (cstr "cp")
    (by decide) (by decide) (by decide)

/-! ## The dialogue -/

theorem IsYesResponse_of_IsNoResponse (response : CString)
    (h : IsNoResponse response = true) : IsYesResponse response = false := by
  simp only [IsNoResponse, Bool.or_eq_true, decide_eq_true_eq] at h
  simp only [IsYesResponse]
  rcases h with ((h | h) | h) | h <;> rw [h] <;> decide

theorem JoinUserRecommendation_eq (recommendation : CString) (tokens : List CString) :
    JoinUserRecommendation recommendation tokens =
      recommendation ++ (tokens.tail.map (fun token => (32 : Byte) :: token)).flatten := by
  unfold JoinUserRecommendation
  generalize tokens.tail = args
  induction args generalizing recommendation with
  | nil => simp
  | cons t args ih =>
    rw [List.foldl_cons, ih]
    simp

theorem strtokLoop_token (delims : List Byte) (token rest cur : CString)
    (ht : ∀ c ∈ token, c ∉ delims) :
    strtokLoop delims (token ++ rest) cur = strtokLoop delims rest (cur ++ token) := by
  induction token generalizing cur with
  | nil => simp
  | cons c token ih =>
    have hc : c ∉ delims := ht c (List.mem_cons_self _ _)
    have h := ih (cur ++ [c]) (fun c1 hc1 => ht c1 (List.mem_cons_of_mem _ hc1))
    rw [List.cons_append, strtokLoop, if_neg hc, h]
    simp

theorem strtokLoop_arguments (args : List CString) (cur : CString) (hcur : cur ≠ [])
    (hargs : ∀ t ∈ args, t ≠ [] ∧ ∀ c ∈ t, c ∉ ([32, 9] : List Byte)) :
    strtokLoop [32, 9] (args.map (fun token => (32 : Byte) :: token)).flatten cur =
      cur :: args := by
  induction args generalizing cur with
  | nil => simp [strtokLoop, hcur]
  | cons a args ih =>
    have ha := hargs a (List.mem_cons_self _ _)
    have h := ih a ha.1 (fun t ht => hargs t (List.mem_cons_of_mem _ ht))
    rw [List.map_cons, List.flatten_cons, List.cons_append, strtokLoop, if_pos (by simp),
      if_neg hcur, strtokLoop_token [32, 9] a _ [] ha.2, List.nil_append, h]

/-- Tokenising the line built by `JoinUserRecommendation` gives back the
recommendation followed by the argument tokens, when the recommendation and the
arguments are non-empty and free of space and tab. -/
theorem TokenizeUserInput_JoinUserRecommendation (recommendation : CString)
    (tokens : List CString) (hr : recommendation ≠ [])
    (hrc : ∀ c ∈ recommendation, c ∉ ([32, 9] : List Byte))
    (hargs : ∀ t ∈ tokens.tail, t ≠ [] ∧ ∀ c ∈ t, c ∉ ([32, 9] : List Byte))
    (hlen : tokens.tail.length + 1 ≤ MAX_CMD_LENGTH - 1) :
    TokenizeUserInput (JoinUserRecommendation recommendation tokens) =
      recommendation :: tokens.tail := by
  rw [JoinUserRecommendation_eq]
  unfold TokenizeUserInput
  rw [strtokLoop_token [32, 9] recommendation _ [] hrc, List.nil_append,
    strtokLoop_arguments tokens.tail recommendation hr hargs]
  apply List.take_of_length_le
  simpa using hlen

/-! ## Unrecognised responses -/

theorem recommendationLoop_skip (recommendations tokens : List CString) (line : CString)
    (responses : List CString) (i : Nat) (hyes : IsYesResponse (stripNewline line) = false)
    (hno : IsNoResponse (stripNewline line) = false) :
    recommendationLoop recommendations tokens (line :: responses) i =
      recommendationLoop recommendations tokens responses i := by
  by_cases hi : i < recommendations.length
  · simp only [recommendationLoop, hi, if_true, hyes, hno, Bool.false_eq_true, if_false]
  · cases responses <;> simp [recommendationLoop, hi]

theorem recommendationLoop_filter (recommendations tokens : List CString)
    (responses : List CString) (i : Nat) :
    recommendationLoop recommendations tokens responses i =
      recommendationLoop recommendations tokens
        (responses.filter (fun line =>
          IsYesResponse (stripNewline line) || IsNoResponse (stripNewline line))) i := by
  induction responses generalizing i with
  | nil => simp
  | cons line responses ih =>
    by_cases hyes : IsYesResponse (stripNewline line) = true
    · rw [List.filter_cons_of_pos (by simp [hyes])]
      by_cases hi : i < recommendations.length
      · simp only [recommendationLoop, hi, if_true, hyes]
      · simp only [recommendationLoop, hi, if_false]
    · by_cases hno : IsNoResponse (stripNewline line) = true
      · rw [List.filter_cons_of_pos (by simp [hno])]
        by_cases hi : i < recommendations.length
        · simp only [recommendationLoop, hi, if_true, hyes, hno, if_false]
          exact ih (i + 1)
        · simp only [recommendationLoop, hi, if_false]
      · rw [List.filter_cons_of_neg (by simp [hyes, hno])]
        rw [recommendationLoop_skip _ _ _ _ _ (by simpa using hyes) (by simpa using hno)]
        exact ih i

/-- C11: a response that is neither a yes nor a no leaves the dialogue at the
same candidate index, so the outcome for a response stream is the outcome for
the stream with the unrecognised responses removed; the responses "xyz", "yes"
accept candidate 0. -/
theorem recommendationLoop_unrecognised (recommendations tokens : List CString) :
    (∀ (line : CString) (responses : List CString) (i : Nat),
      IsYesResponse (stripNewline line) = false → IsNoResponse (stripNewline line) = false →
      recommendationLoop recommendations tokens (line :: responses) i =
        recommendationLoop recommendations tokens responses i) ∧
    (∀ (responses : List CString) (i : Nat),
      recommendationLoop recommendations tokens responses i =
        recommendationLoop recommendations tokens
          (responses.filter (fun line =>
            IsYesResponse (stripNewline line) || IsNoResponse (stripNewline line))) i) ∧
    (∀ h : 0 < recommendations.length,
      recommendationLoop recommendations tokens [cstr "xyz\n", cstr "yes\n"] 0 =
        DialogueOutcome.Accepted 0
          (JoinUserRecommendation (recommendations.get ⟨0, h⟩) tokens)
          (TokenizeUserInput (JoinUserRecommendation (recommendations.get ⟨0, h⟩) tokens))) := by
  refine ⟨?_, ?_, ?_⟩
  · intro line responses i hyes hno
    exact recommendationLoop_skip recommendations tokens line responses i hyes hno
  · intro responses i
    exact recommendationLoop_filter recommendations tokens responses i
  · intro h
    rw [recommendationLoop_skip _ _ _ _ _ (by decide) (by decide)]
    have hy : IsYesResponse (stripNewline (cstr "yes\n")) = true := by decide
    have hget : recommendations.getD 0 [] = recommendations.get ⟨0, h⟩ := by
      rw [List.getD_eq_getElem recommendations [] h]
      rfl
    simp only [recommendationLoop, h, if_true, hy, hget]

/-- C11 at the candidates "ls", "less", the failed tokens "lss -a" and the
responses "xyz", "yes": the first response changes nothing and candidate 0 is
accepted. -/
theorem recommendationLoop_unrecognised_witness :
    recommendationLoop [cstr "ls", cstr "less"] [cstr "lss", cstr "-a"]
        (cstr "xyz\n" :: [cstr "yes\n"]) 0 =
      recommendationLoop [cstr "ls", cstr "less"] [cstr "lss", cstr "-a"] [cstr "yes\n"] 0 ∧
    recommendationLoop [cstr "ls", cstr "less"] [cstr "lss", cstr "-a"] [cstr "yes\n"] 0 =
      DialogueOutcome.Accepted 0 (cstr "ls -a") [cstr "ls", cstr "-a"] :=
  ⟨(recommendationLoop_unrecognised [cstr "ls", cstr "less"] [cstr "lss", cstr "-a"]).1
      (cstr "xyz\n") [cstr "yes\n"] 0 (by decide) (by decide),
    by decide⟩

/-! ## ExecuteCommand -/

theorem strcmp_eq_zero_iff (a b : CString) : strcmp a b = 0 ↔ a = b := by
  induction a generalizing b with
  | nil => cases b <;> simp [strcmp]
  | cons x a ih =>
    cases b with
    | nil => simp [strcmp]
    | cons y b =>
      simp only [strcmp, List.cons.injEq]
      by_cases h1 : x < y
      · simp only [h1, if_true]
        constructor
        · intro h; omega
        · rintro ⟨h, _⟩; subst h; exact absurd h1 (lt_irrefl _)
      · by_cases h2 : y < x
        · simp only [h1, h2, if_true, if_false]
          constructor
          · intro h; omega
          · rintro ⟨h, _⟩; subst h; exact absurd h2 (lt_irrefl _)
        · have hxy : x = y := le_antisymm (not_lt.mp h2) (not_lt.mp h1)
          subst hxy
          simp only [lt_irrefl, if_false, ih, true_and]

theorem IsCommandInTable_iff (cmdTable : List CString) (cmd : CString) :
    IsCommandInTable cmdTable cmd = true ↔ cmd ≠ [] ∧ cmd ∈ cmdTable := by
  unfold IsCommandInTable
  by_cases h : cmd = []
  · simp [h]
  · simp only [h, if_false, List.any_eq_true, decide_eq_true_eq, strcmp_eq_zero_iff, ne_eq,
      not_false_eq_true, true_and]
    constructor
    · rintro ⟨e, he, rfl⟩; exact he
    · intro hm; exact ⟨cmd, hm, rfl⟩

theorem IsBuiltInCommand_iff (cmd : CString) :
    IsBuiltInCommand cmd = true ↔ cmd ∈ builtInCommands := by
  unfold IsBuiltInCommand builtInCommands
  by_cases h : cmd = []
  · subst h; decide
  · simp [h, strcmp_eq_zero_iff, or_assoc]

theorem ExecuteCommand_cons (cmdTable : List CString) (fork : Option Int) (cmd : CString)
    (rest : List CString) :
    ExecuteCommand cmdTable fork (cmd :: rest) =
      if cmd = cstr "exit" then (1, ExecEffect.Nothing)
      else if cmd = cstr "help" then (0, ExecEffect.Help)
      else if cmd = cstr "clear" then (0, ExecEffect.Clear)
      else if cmd = cstr "list" then (0, ExecEffect.ListCommands)
      else if cmd = cstr "history" then (0, ExecEffect.History)
      else if cmd = [] ∨ cmd ∉ cmdTable then (-1, ExecEffect.Nothing)
      else
        match fork with
        | none => (0, ExecEffect.ForkError)
        | some status => (0, ExecEffect.Spawned (cmd :: rest) status) := by
  have hin : IsCommandInTable cmdTable cmd = false ↔ (cmd = [] ∨ cmd ∉ cmdTable) := by
    rw [← Bool.not_eq_true, IsCommandInTable_iff]
    by_cases h : cmd = [] <;> simp [h]
  simp only [ExecuteCommand, strcmp_eq_zero_iff, hin]

theorem ExecuteCommand_builtin_eq (cmdTable : List CString) (fork : Option Int)
    (args : List CString) :
    ExecuteCommand cmdTable fork (cstr "exit" :: args) = (1, ExecEffect.Nothing) ∧
    ExecuteCommand cmdTable fork (cstr "help" :: args) = (0, ExecEffect.Help) ∧
    ExecuteCommand cmdTable fork (cstr "clear" :: args) = (0, ExecEffect.Clear) ∧
    ExecuteCommand cmdTable fork (cstr "list" :: args) = (0, ExecEffect.ListCommands) ∧
    ExecuteCommand cmdTable fork (cstr "history" :: args) = (0, ExecEffect.History) := by
  refine ⟨?_, ?_, ?_, ?_, ?_⟩
  · rw [ExecuteCommand_cons, if_pos rfl]
  · rw [ExecuteCommand_cons, if_neg (by decide), if_pos rfl]
  · rw [ExecuteCommand_cons, if_neg (by decide), if_neg (by decide), if_pos rfl]
  · rw [ExecuteCommand_cons, if_neg (by decide), if_neg (by decide), if_neg (by decide),
      if_pos rfl]
  · rw [ExecuteCommand_cons, if_neg (by decide), if_neg (by decide), if_neg (by decide),
      if_neg (by decide), if_pos rfl]

theorem ExecuteCommand_builtin_ne (cmdTable : List CString) (fork : Option Int)
    (cmd : CString) (rest : List CString) (hb : cmd ∈ builtInCommands) :
    (ExecuteCommand cmdTable fork (cmd :: rest)).1 ≠ -1 := by
  have h := ExecuteCommand_builtin_eq cmdTable fork rest
  simp only [builtInCommands, List.mem_cons, List.not_mem_nil, or_false] at hb
  rcases hb with hb | hb | hb | hb | hb <;> subst hb
  · rw [h.1]; decide
  · rw [h.2.1]; decide
  · rw [h.2.2.1]; decide
  · rw [h.2.2.2.1]; decide
  · rw [h.2.2.2.2]; decide

theorem ExecuteCommand_inTable (cmdTable : List CString) (fork : Option Int) (cmd : CString)
    (rest : List CString) (hne : cmd ≠ []) (hb : cmd ∉ builtInCommands) (hin : cmd ∈ cmdTable) :
    (ExecuteCommand cmdTable fork (cmd :: rest)).1 = 0 := by
  simp only [builtInCommands, List.mem_cons, List.not_mem_nil, or_false, not_or] at hb
  obtain ⟨h1, h2, h3, h4, h5⟩ := hb
  rw [ExecuteCommand_cons]
  simp only [h1, h2, h3, h4, h5, if_false, hne, hin, not_true_eq_false, or_self]
  cases fork <;> rfl

/-- C13: for every command table and every argument list, ExecuteCommand on a
token sequence that starts with "list", "help", "clear" or "history" performs
the built-in action and returns 0: the table is not searched and no process is
started, also when the table contains an entry of that name. -/
theorem ExecuteCommand_builtin (cmdTable : List CString) (fork : Option Int)
    (args : List CString) :
    ExecuteCommand cmdTable fork (cstr "list" :: args) = (0, ExecEffect.ListCommands) ∧
    ExecuteCommand cmdTable fork (cstr "help" :: args) = (0, ExecEffect.Help) ∧
    ExecuteCommand cmdTable fork (cstr "clear" :: args) = (0, ExecEffect.Clear) ∧
    ExecuteCommand cmdTable fork (cstr "history" :: args) = (0, ExecEffect.History) ∧
    ExecuteCommand (cstr "list" :: cmdTable) fork (cstr "list" :: args) =
      (0, ExecEffect.ListCommands) :=
  ⟨(ExecuteCommand_builtin_eq cmdTable fork args).2.2.2.1,
    (ExecuteCommand_builtin_eq cmdTable fork args).2.1,
    (ExecuteCommand_builtin_eq cmdTable fork args).2.2.1,
    (ExecuteCommand_builtin_eq cmdTable fork args).2.2.2.2,
    (ExecuteCommand_builtin_eq (cstr "list" :: cmdTable) fork args).2.2.2.1⟩

/-- C14: for a token sequence of non-empty tokens (as the tokeniser produces
them), ExecuteCommand returns -1 exactly when the sequence is non-empty and its
first token is neither a built-in name nor equal to a table entry; the empty
sequence returns 0, and a first token that is not built-in and is in the table
returns 0 whether `fork` fails or the child ends with any status. -/
theorem ExecuteCommand_notFound_iff (cmdTable : List CString) (fork : Option Int)
    (tokens : List CString) (htokens : ∀ t ∈ tokens, t ≠ []) :
    ((ExecuteCommand cmdTable fork tokens).1 = -1 ↔
      ∃ cmd rest, tokens = cmd :: rest ∧ cmd ∉ builtInCommands ∧ cmd ∉ cmdTable) ∧
    (ExecuteCommand cmdTable fork []).1 = 0 ∧
    (∀ cmd rest, tokens = cmd :: rest → cmd ∉ builtInCommands → cmd ∈ cmdTable →
      (ExecuteCommand cmdTable fork tokens).1 = 0 ∧
      (ExecuteCommand cmdTable none tokens).1 = 0 ∧
      ∀ status : Int, (ExecuteCommand cmdTable (some status) tokens).1 = 0) := by
  have key : ∀ (f : Option Int) (cmd : CString) (rest : List CString), cmd ≠ [] →
      cmd ∉ builtInCommands → cmd ∈ cmdTable → (ExecuteCommand cmdTable f (cmd :: rest)).1 = 0 :=
    fun f cmd rest hne hb hin => ExecuteCommand_inTable cmdTable f cmd rest hne hb hin
  refine ⟨?_, rfl, ?_⟩
  · cases tokens with
    | nil => simp [ExecuteCommand]
    | cons cmd rest =>
      have hne : cmd ≠ [] := htokens cmd (List.mem_cons_self _ _)
      constructor
      · intro h
        refine ⟨cmd, rest, rfl, ?_, ?_⟩
        · intro hb
          exact ExecuteCommand_builtin_ne cmdTable fork cmd rest hb h
        · intro hin
          by_cases hb : cmd ∈ builtInCommands
          · exact ExecuteCommand_builtin_ne cmdTable fork cmd rest hb h
          · rw [key fork cmd rest hne hb hin] at h
            cases h
      · rintro ⟨cmd1, rest1, heq, hb, hin⟩
        obtain ⟨rfl, rfl⟩ := List.cons.inj heq
        simp only [builtInCommands, List.mem_cons, List.not_mem_nil, or_false, not_or] at hb
        obtain ⟨h1, h2, h3, h4, h5⟩ := hb
        rw [ExecuteCommand_cons]
        simp only [h1, h2, h3, h4, h5, if_false, hin, not_false_eq_true, or_true, if_true]
  · intro cmd rest heq hb hin
    subst heq
    have hne : cmd ≠ [] := htokens cmd (List.mem_cons_self _ _)
    exact ⟨key fork cmd rest hne hb hin, key none cmd rest hne hb hin,
      fun status => key (some status) cmd rest hne hb hin⟩

/-- C14 at the table "cat", "ls": the tokens "ls -l" are handled whatever
`fork` does, and the tokens "sl -l" are not found. -/
theorem ExecuteCommand_notFound_iff_witness :
    (ExecuteCommand [cstr "cat", cstr "ls"] (some 256) [cstr "ls", cstr "-l"]).1 = 0 ∧
    (ExecuteCommand [cstr "cat", cstr "ls"] none [cstr "ls", cstr "-l"]).1 = 0 ∧
    (ExecuteCommand [cstr "cat", cstr "ls"] none [cstr "sl", cstr "-l"]).1 = -1 :=
  ⟨((ExecuteCommand_notFound_iff [cstr "cat", cstr "ls"] (some 256) [cstr "ls", cstr "-l"]
      (by decide)).2.2 (cstr "ls") [cstr "-l"] rfl (by decide) (by decide)).1,
    ((ExecuteCommand_notFound_iff [cstr "cat", cstr "ls"] (some 256) [cstr "ls", cstr "-l"]
      (by decide)).2.2 (cstr "ls") [cstr "-l"] rfl (by decide) (by decide)).2.1,
    (ExecuteCommand_notFound_iff [cstr "cat", cstr "ls"] none [cstr "sl", cstr "-l"]
      (by decide)).1.mpr ⟨cstr "sl", [cstr "-l"], rfl, by decide, by decide⟩⟩

theorem strtokLoop_ne_nil (delims : List Byte) (input cur : CString) :
    ∀ t ∈ strtokLoop delims input cur, t ≠ [] := by
  induction input generalizing cur with
  | nil =>
    intro t ht
    by_cases hc : cur = []
    · simp [strtokLoop, hc] at ht
    · simp only [strtokLoop, hc, if_false, List.mem_singleton] at ht
      rw [ht]; exact hc
  | cons c rest ih =>
    intro t ht
    rw [strtokLoop] at ht
    by_cases hd : c ∈ delims
    · rw [if_pos hd] at ht
      by_cases hc : cur = []
      · rw [if_pos hc] at ht
        exact ih [] t ht
      · rw [if_neg hc, List.mem_cons] at ht
        rcases ht with ht | ht
        · rw [ht]; exact hc
        · exact ih [] t ht
    · rw [if_neg hd] at ht
      exact ih (cur ++ [c]) t ht

/-- The tokens that `TokenizeUserInput` returns are not empty. -/
theorem TokenizeUserInput_ne_nil (command : CString) :
    ∀ t ∈ TokenizeUserInput command, t ≠ [] := by
  intro t ht
  exact strtokLoop_ne_nil [32, 9] command [] t (List.mem_of_mem_take ht)

/-! ## Yes and no -/

/-- C19: IsYesResponse is true exactly when the lowercased response is one of
y, yes, yeah, yep, sure, ok, okay, IsNoResponse exactly when it is one of n, no,
nope, nah, the whole response being compared; no response is both. -/
theorem IsYesResponse_IsNoResponse_iff (response : CString) :
    (IsYesResponse response = true ↔
      response.map tolower ∈ [cstr "y", cstr "yes", cstr "yeah", cstr "yep", cstr "sure",
        cstr "ok", cstr "okay"]) ∧
    (IsNoResponse response = true ↔
      response.map tolower ∈ [cstr "n", cstr "no", cstr "nope", cstr "nah"]) ∧
    ¬ (IsYesResponse response = true ∧ IsNoResponse response = true) ∧
    (∀ c : Byte, tolower c = if 65 ≤ c.val ∧ c.val ≤ 90 then c + 32 else c) := by
  refine ⟨?_, ?_, ?_, fun c => rfl⟩
  · simp only [IsYesResponse, Bool.or_eq_true, decide_eq_true_eq, List.mem_cons,
      List.not_mem_nil, or_false, or_assoc]
  · simp only [IsNoResponse, Bool.or_eq_true, decide_eq_true_eq, List.mem_cons,
      List.not_mem_nil, or_false, or_assoc]
  · rintro ⟨hyes, hno⟩
    rw [IsYesResponse_of_IsNoResponse response hno] at hyes
    cases hyes

/-! ## The second call of ExecuteCommand -/

theorem TokenizeUserInput_JoinUserRecommendation_head (recommendation : CString)
    (tokens : List CString) (hr : recommendation ≠ [])
    (hrc : ∀ c ∈ recommendation, c ∉ ([32, 9] : List Byte)) :
    ∃ rest, TokenizeUserInput (JoinUserRecommendation recommendation tokens) =
      recommendation :: rest := by
  rw [JoinUserRecommendation_eq]
  unfold TokenizeUserInput
  rw [strtokLoop_token [32, 9] recommendation _ [] hrc, List.nil_append]
  cases tokens.tail with
  | nil =>
    refine ⟨[], ?_⟩
    simp [strtokLoop, hr, MAX_CMD_LENGTH]
  | cons a args =>
    refine ⟨(strtokLoop [32, 9] (a ++ (args.map (fun token => (32 : Byte) :: token)).flatten)
      []).take (MAX_CMD_LENGTH - 1 - 1), ?_⟩
    rw [List.map_cons, List.flatten_cons, List.cons_append, strtokLoop, if_pos (by simp),
      if_neg hr]
    rfl

theorem mem_DeleteDuplicatedRecommendations_FindSimilarCommands (cmd : CString)
    (cmdTable : List CString) (candidate : CString)
    (h : candidate ∈ DeleteDuplicatedRecommendations (FindSimilarCommands cmd cmdTable)) :
    candidate ∈ cmdTable ∧ 2 ≤ strlen candidate := by
  rw [DeleteDuplicatedRecommendations_eq, mem_keepFirstOccurrences] at h
  obtain ⟨hin, hm⟩ := FindSimilarCommands_mem cmd cmdTable candidate h
  exact ⟨hin, ((entryMatches_iff cmd candidate).mp hm).1⟩

/-- C12, as stated, fails for a table entry that contains a space: with the
table "git lfs" and the failed token "gitlfs" the candidate is "git lfs", the
command line "git lfs" is tokenised into "git" and "lfs", and the second call of
ExecuteCommand returns -1. -/
theorem ExecuteCommand_accepted_counterexample :
    ¬ (∀ (cmdTable tokens : List CString) (candidate : CString) (fork : Option Int),
      (ExecuteCommand cmdTable fork tokens).1 = -1 →
      candidate ∈ DeleteDuplicatedRecommendations
        (FindSimilarCommands (tokens.getD 0 []) cmdTable) →
      (ExecuteCommand cmdTable fork
        (TokenizeUserInput (JoinUserRecommendation candidate tokens))).1 ≠ -1) := by
  intro h
  exact h [cstr "git lfs"] [cstr "gitlfs"] (cstr "git lfs") none (by decide) (by decide)
    (by decide)

/-- C12, amended: for every command table, every token sequence and every
candidate produced by FindSimilarCommands and DeleteDuplicatedRecommendations
that contains no space and no tab, the tokens of the command line built by
JoinUserRecommendation start with the candidate, and the second call of
ExecuteCommand on them never returns -1. -/
theorem ExecuteCommand_accepted (cmdTable tokens : List CString) (candidate : CString)
    (fork : Option Int)
    (hc : candidate ∈ DeleteDuplicatedRecommendations
      (FindSimilarCommands (tokens.getD 0 []) cmdTable))
    (hws : ∀ c ∈ candidate, c ∉ ([32, 9] : List Byte)) :
    (∃ rest, TokenizeUserInput (JoinUserRecommendation candidate tokens) = candidate :: rest) ∧
    (ExecuteCommand cmdTable fork
      (TokenizeUserInput (JoinUserRecommendation candidate tokens))).1 ≠ -1 := by
  obtain ⟨hin, h2⟩ := mem_DeleteDuplicatedRecommendations_FindSimilarCommands _ _ _ hc
  have hne : candidate ≠ [] := by
    intro h; subst h; simp [strlen] at h2
  obtain ⟨rest, hrest⟩ := TokenizeUserInput_JoinUserRecommendation_head candidate tokens hne hws
  refine ⟨⟨rest, hrest⟩, ?_⟩
  rw [hrest]
  by_cases hb : candidate ∈ builtInCommands
  · exact ExecuteCommand_builtin_ne cmdTable fork candidate rest hb
  · rw [ExecuteCommand_inTable cmdTable fork candidate rest hne hb hin]
    decide

/-- C12, amended, at the table "git", "ls", the failed tokens "gti status" and
the candidate "git": the second call spawns "git status" and returns 0. -/
theorem ExecuteCommand_accepted_witness :
    (ExecuteCommand [cstr "git", cstr "ls"] (some 0) [cstr "gti", cstr "status"]).1 = -1 ∧
    TokenizeUserInput (JoinUserRecommendation (cstr "git") [cstr "gti", cstr "status"]) =
      [cstr "git", cstr "status"] ∧
    (ExecuteCommand [cstr "git", cstr "ls"] (some 0)
      (TokenizeUserInput
        (JoinUserRecommendation (cstr "git") [cstr "gti", cstr "status"]))).1 ≠ -1 :=
  ⟨by decide, by decide,
    (ExecuteCommand_accepted [cstr "git", cstr "ls"] [cstr "gti", cstr "status"] (cstr "git")
      (some 0) (by decide) (by decide)).2⟩

/-! ## The end of the dialogue -/

theorem ExecuteCommand_notFound_effect (cmdTable : List CString) (fork : Option Int)
    (tokens : List CString) (h : (ExecuteCommand cmdTable fork tokens).1 = -1) :
    tokens ≠ [] ∧ (ExecuteCommand cmdTable fork tokens).2 = ExecEffect.Nothing := by
  cases tokens with
  | nil => simp [ExecuteCommand] at h
  | cons cmd rest =>
    refine ⟨by simp, ?_⟩
    rw [ExecuteCommand_cons] at h ⊢
    split_ifs at h ⊢ <;> first | rfl | (exfalso; revert h; cases fork <;> simp)

theorem mainIteration_notFound (cmdTable : List CString) (fork : Option Int)
    (input : CString) (responses : List CString)
    (hnf : (ExecuteCommand cmdTable fork (TokenizeUserInput input)).1 = -1)
    (hrec : FindSimilarCommands ((TokenizeUserInput input).getD 0 []) cmdTable ≠ []) :
    mainIteration cmdTable fork input responses =
      match recommendationLoop
        (DeleteDuplicatedRecommendations
          (FindSimilarCommands ((TokenizeUserInput input).getD 0 []) cmdTable))
        (TokenizeUserInput input) responses 0 with
      | DialogueOutcome.Eof =>
        ⟨MainStep.Terminate 0,
          [Printed.CommandNotFound ((TokenizeUserInput input).getD 0 []),
            Printed.Found (DeleteDuplicatedRecommendations
              (FindSimilarCommands ((TokenizeUserInput input).getD 0 []) cmdTable)).length] ++
            recommendationLoopOutput
              (DeleteDuplicatedRecommendations
                (FindSimilarCommands ((TokenizeUserInput input).getD 0 []) cmdTable))
              (TokenizeUserInput input) responses 0,
          [ExecEffect.Nothing], [TokenizeUserInput input]⟩
      | DialogueOutcome.ExhaustedNo =>
        ⟨MainStep.Resume,
          [Printed.CommandNotFound ((TokenizeUserInput input).getD 0 []),
            Printed.Found (DeleteDuplicatedRecommendations
              (FindSimilarCommands ((TokenizeUserInput input).getD 0 []) cmdTable)).length] ++
            recommendationLoopOutput
              (DeleteDuplicatedRecommendations
                (FindSimilarCommands ((TokenizeUserInput input).getD 0 []) cmdTable))
              (TokenizeUserInput input) responses 0,
          [ExecEffect.Nothing], [TokenizeUserInput input]⟩
      | DialogueOutcome.Accepted _ _ newTokens =>
        ⟨if (ExecuteCommand cmdTable fork newTokens).1 = 1 then MainStep.Terminate 0
          else MainStep.Resume,
          [Printed.CommandNotFound ((TokenizeUserInput input).getD 0 []),
            Printed.Found (DeleteDuplicatedRecommendations
              (FindSimilarCommands ((TokenizeUserInput input).getD 0 []) cmdTable)).length] ++
            recommendationLoopOutput
              (DeleteDuplicatedRecommendations
                (FindSimilarCommands ((TokenizeUserInput input).getD 0 []) cmdTable))
              (TokenizeUserInput input) responses 0,
          [ExecEffect.Nothing, (ExecuteCommand cmdTable fork newTokens).2],
          [TokenizeUserInput input, newTokens]⟩ := by
  obtain ⟨htok, heff⟩ := ExecuteCommand_notFound_effect _ _ _ hnf
  have hinput : input ≠ [] := by
    intro h; subst h; exact htok (by decide)
  have hlen : (TokenizeUserInput input).length > 0 := List.length_pos.mpr htok
  have hrlen : ¬ (FindSimilarCommands ((TokenizeUserInput input).getD 0 []) cmdTable).length = 0 :=
    fun h => hrec (List.length_eq_zero.mp h)
  unfold mainIteration
  simp only [hinput, if_false, hlen, if_true, hnf, hrlen, heff]
  rw [if_neg (by decide)]
  cases recommendationLoop
    (DeleteDuplicatedRecommendations
      (FindSimilarCommands ((TokenizeUserInput input).getD 0 []) cmdTable))
    (TokenizeUserInput input) responses 0 with
  | Eof => rfl
  | ExhaustedNo => rfl
  | Accepted i newCommand newTokens =>
    simp only
    split <;> rfl

theorem recommendationLoop_no_yes (recommendations tokens : List CString)
    (responses : List CString) (i : Nat)
    (hyes : ∀ line ∈ responses, IsYesResponse (stripNewline line) = false) :
    recommendationLoop recommendations tokens responses i =
      if i + (responses.filter (fun line => IsNoResponse (stripNewline line))).length <
          recommendations.length then DialogueOutcome.Eof
      else DialogueOutcome.ExhaustedNo := by
  induction responses generalizing i with
  | nil => simp [recommendationLoop]
  | cons line responses ih =>
    have hy : IsYesResponse (stripNewline line) = false := hyes line (List.mem_cons_self _ _)
    have ih1 := fun j => ih j (fun l hl => hyes l (List.mem_cons_of_mem _ hl))
    by_cases hno : IsNoResponse (stripNewline line) = true
    · rw [List.filter_cons, if_pos hno]
      by_cases hi : i < recommendations.length
      · simp only [recommendationLoop, hi, if_true, hy, hno, Bool.false_eq_true, if_false,
          List.length_cons]
        rw [ih1 (i + 1)]
        have : i + 1 + (responses.filter (fun line =>
            IsNoResponse (stripNewline line))).length =
            i + ((responses.filter (fun line =>
              IsNoResponse (stripNewline line))).length + 1) := by omega
        rw [this]
      · simp only [recommendationLoop, hi, if_false]
        rw [if_neg (by omega)]
    · rw [List.filter_cons, if_neg hno,
        recommendationLoop_skip _ _ _ _ _ hy (by simpa using hno)]
      exact ih1 i

theorem recommendationLoopOutput_no_yes (recommendations tokens : List CString)
    (responses : List CString) (i : Nat)
    (hyes : ∀ line ∈ responses, IsYesResponse (stripNewline line) = false)
    (hno : recommendations.length ≤
      i + (responses.filter (fun line => IsNoResponse (stripNewline line))).length) :
    ∀ p ∈ recommendationLoopOutput recommendations tokens responses i,
      (∃ candidate arguments, p = Printed.DidYouMean candidate arguments) ∨
        p = Printed.PleaseEnter := by
  induction responses generalizing i with
  | nil =>
    intro p hp
    have hi : ¬ i < recommendations.length := by simpa using hno
    simp [recommendationLoopOutput, hi] at hp
  | cons line responses ih =>
    intro p hp
    have hy : IsYesResponse (stripNewline line) = false := hyes line (List.mem_cons_self _ _)
    have ih1 := fun j => ih j (fun l hl => hyes l (List.mem_cons_of_mem _ hl))
    by_cases hi : i < recommendations.length
    · by_cases hn : IsNoResponse (stripNewline line) = true
      · rw [List.filter_cons, if_pos hn, List.length_cons] at hno
        simp only [recommendationLoopOutput, hi, if_true, hy, hn, Bool.false_eq_true, if_false,
          List.mem_cons] at hp
        rcases hp with hp | hp
        · exact Or.inl ⟨_, _, hp⟩
        · exact ih1 (i + 1) (by omega) p hp
      · rw [List.filter_cons, if_neg hn] at hno
        simp only [recommendationLoopOutput, hi, if_true, hy, hn, Bool.false_eq_true, if_false,
          List.mem_cons] at hp
        rcases hp with hp | hp | hp
        · exact Or.inl ⟨_, _, hp⟩
        · exact Or.inr hp
        · exact ih1 i hno p hp
    · simp [recommendationLoopOutput, hi] at hp

/-- C17, as stated, fails on the notice: with the table "ls" and the line "sl",
the one candidate "ls" is refused by the response "n"; the dialogue is exhausted
and the iteration has printed the not-found line, the count and the one prompt,
and nothing after that prompt. -/
theorem recommendationLoop_exhausted_counterexample :
    recommendationLoop [cstr "ls"] [cstr "sl"] [cstr "n\n"] 0 = DialogueOutcome.ExhaustedNo ∧
    (mainIteration [cstr "ls"] none (cstr "sl") [cstr "n\n"]).printed =
      [Printed.CommandNotFound (cstr "sl"), Printed.Found 1,
        Printed.DidYouMean (cstr "ls") []] ∧
    (mainIteration [cstr "ls"] none (cstr "sl") [cstr "n\n"]).printed.getLast? =
      some (Printed.DidYouMean (cstr "ls") []) := by
  refine ⟨by decide, by decide, by decide⟩

theorem getLast?_cons_of_getLast? {α : Type} (a : α) (l : List α) (x : α)
    (h : l.getLast? = some x) : (a :: l).getLast? = some x := by
  cases l with
  | nil => simp at h
  | cons b l => rw [List.getLast?_cons_cons]; exact h

theorem recommendationLoopOutput_getLast_no (recommendations tokens : List CString)
    (responses : List CString) (i : Nat)
    (hyes : ∀ line ∈ responses, IsYesResponse (stripNewline line) = false)
    (hi : i < recommendations.length)
    (hno : recommendations.length ≤
      i + (responses.filter (fun line => IsNoResponse (stripNewline line))).length) :
    (recommendationLoopOutput recommendations tokens responses i).getLast? =
      some (Printed.DidYouMean (recommendations.getD (recommendations.length - 1) [])
        tokens.tail) := by
  induction responses generalizing i with
  | nil => simp at hno; omega
  | cons line responses ih =>
    have hy : IsYesResponse (stripNewline line) = false := hyes line (List.mem_cons_self _ _)
    have ih1 := fun j => ih j (fun l hl => hyes l (List.mem_cons_of_mem _ hl))
    by_cases hn : IsNoResponse (stripNewline line) = true
    · rw [List.filter_cons, if_pos hn, List.length_cons] at hno
      simp only [recommendationLoopOutput, hi, if_true, hy, hn, Bool.false_eq_true, if_false]
      by_cases hlast : i + 1 < recommendations.length
      · exact getLast?_cons_of_getLast? _ _ _ (ih1 (i + 1) hlast (by omega))
      · have hempty : recommendationLoopOutput recommendations tokens responses (i + 1) = [] := by
          cases responses <;> simp [recommendationLoopOutput, hlast]
        have hidx : recommendations.length - 1 = i := by omega
        rw [hempty, hidx]
        rfl
    · rw [List.filter_cons, if_neg hn] at hno
      simp only [recommendationLoopOutput, hi, if_true, hy, hn, Bool.false_eq_true, if_false]
      exact getLast?_cons_of_getLast? _ _ _
        (getLast?_cons_of_getLast? _ _ _ (ih1 i hi hno))

/-- C17, amended: when no response is a yes and exactly as many responses are a
no as there are candidates, the dialogue ends in ExhaustedNo; the loop prints
only its prompts and the requests to answer y or n; the iteration of `main`
prints the not-found line, the count and the output of the loop and nothing
after it, so that the last thing printed is the prompt for the last candidate
and no notice that the alternatives are exhausted is printed; it calls
ExecuteCommand on the failed tokens only, dispatches nothing and leaves
`should_exit` at 0. -/
theorem recommendationLoop_exhausted (recommendations tokens responses : List CString)
    (hyes : ∀ line ∈ responses, IsYesResponse (stripNewline line) = false)
    (hno : (responses.filter (fun line => IsNoResponse (stripNewline line))).length =
      recommendations.length) :
    recommendationLoop recommendations tokens responses 0 = DialogueOutcome.ExhaustedNo ∧
    (∀ p ∈ recommendationLoopOutput recommendations tokens responses 0,
      (∃ candidate arguments, p = Printed.DidYouMean candidate arguments) ∨
        p = Printed.PleaseEnter) ∧
    (∀ (cmdTable : List CString) (fork : Option Int) (input : CString),
      (ExecuteCommand cmdTable fork (TokenizeUserInput input)).1 = -1 →
      FindSimilarCommands ((TokenizeUserInput input).getD 0 []) cmdTable ≠ [] →
      recommendations = DeleteDuplicatedRecommendations
        (FindSimilarCommands ((TokenizeUserInput input).getD 0 []) cmdTable) →
      tokens = TokenizeUserInput input →
      (mainIteration cmdTable fork input responses).step = MainStep.Resume ∧
      (mainIteration cmdTable fork input responses).effects = [ExecEffect.Nothing] ∧
      (mainIteration cmdTable fork input responses).calls = [tokens] ∧
      (mainIteration cmdTable fork input responses).printed =
        [Printed.CommandNotFound (tokens.getD 0 []), Printed.Found recommendations.length] ++
          recommendationLoopOutput recommendations tokens responses 0 ∧
      (∀ p ∈ (mainIteration cmdTable fork input responses).printed,
        p = Printed.CommandNotFound (tokens.getD 0 []) ∨
        p = Printed.Found recommendations.length ∨
        (∃ candidate arguments, p = Printed.DidYouMean candidate arguments) ∨
        p = Printed.PleaseEnter) ∧
      (mainIteration cmdTable fork input responses).printed.getLast? =
        some (Printed.DidYouMean (recommendations.getD (recommendations.length - 1) [])
          tokens.tail)) := by
  have hout : recommendationLoop recommendations tokens responses 0 =
      DialogueOutcome.ExhaustedNo := by
    rw [recommendationLoop_no_yes recommendations tokens responses 0 hyes, if_neg (by omega)]
  have hloop := recommendationLoopOutput_no_yes recommendations tokens responses 0 hyes
    (by omega)
  refine ⟨hout, hloop, ?_⟩
  intro cmdTable fork input hnf hrec hr ht
  have hpos : 0 < recommendations.length := by
    obtain ⟨x, hx⟩ := List.exists_mem_of_ne_nil _ hrec
    have hx2 : x ∈ recommendations := by
      rw [hr, DeleteDuplicatedRecommendations_eq, mem_keepFirstOccurrences]
      exact hx
    exact List.length_pos_of_mem hx2
  have hlast := recommendationLoopOutput_getLast_no recommendations tokens responses 0 hyes
    hpos (by omega)
  have hmain := mainIteration_notFound cmdTable fork input responses hnf hrec
  rw [← hr, ← ht, hout] at hmain
  rw [hmain]
  refine ⟨rfl, rfl, rfl, rfl, ?_, ?_⟩
  · intro p hp
    simp only [List.cons_append, List.nil_append, List.mem_cons] at hp
    rcases hp with hp | hp | hp
    · exact Or.inl hp
    · exact Or.inr (Or.inl hp)
    · exact Or.inr (Or.inr (hloop p hp))
  · simp only [List.getLast?_append, hlast]
    rfl

/-- C17, amended, at the table "ls", "less", the line "lss" and the responses
"n", "maybe", "no": both candidates are refused, the shell goes on, and the
last thing printed is the prompt for "less". -/
theorem recommendationLoop_exhausted_witness :
    recommendationLoop [cstr "ls", cstr "less"] [cstr "lss"]
      [cstr "n\n", cstr "maybe\n", cstr "no\n"] 0 = DialogueOutcome.ExhaustedNo ∧
    (mainIteration [cstr "ls", cstr "less"] none (cstr "lss")
      [cstr "n\n", cstr "maybe\n", cstr "no\n"]).step = MainStep.Resume ∧
    (mainIteration [cstr "ls", cstr "less"] none (cstr "lss")
      [cstr "n\n", cstr "maybe\n", cstr "no\n"]).printed =
      [Printed.CommandNotFound (cstr "lss"), Printed.Found 2,
        Printed.DidYouMean (cstr "ls") [], Printed.DidYouMean (cstr "less") [],
        Printed.PleaseEnter, Printed.DidYouMean (cstr "less") []] :=
  ⟨(recommendationLoop_exhausted [cstr "ls", cstr "less"] [cstr "lss"]
      [cstr "n\n", cstr "maybe\n", cstr "no\n"] (by decide) (by decide)).1,
    ((recommendationLoop_exhausted [cstr "ls", cstr "less"] [cstr "lss"]
      [cstr "n\n", cstr "maybe\n", cstr "no\n"] (by decide) (by decide)).2.2
      [cstr "ls", cstr "less"] none (cstr "lss") (by decide) (by decide) (by decide)
      (by decide)).1,
    (((recommendationLoop_exhausted [cstr "ls", cstr "less"] [cstr "lss"]
      [cstr "n\n", cstr "maybe\n", cstr "no\n"] (by decide) (by decide)).2.2
      [cstr "ls", cstr "less"] none (cstr "lss") (by decide) (by decide) (by decide)
      (by decide)).2.2.2.1).trans (by decide)⟩

/-- C18: when the responses end while candidate i is presented, the dialogue
ends in Eof, whatever the index i, and so for every response stream without a
yes and with fewer noes than candidates; nothing is dispatched, the loop of
`main` is not resumed and `main` returns 0. -/
theorem recommendationLoop_eof (recommendations tokens : List CString) :
    (∀ i : Nat, i < recommendations.length →
      recommendationLoop recommendations tokens [] i = DialogueOutcome.Eof) ∧
    (∀ responses : List CString,
      (∀ line ∈ responses, IsYesResponse (stripNewline line) = false) →
      (responses.filter (fun line => IsNoResponse (stripNewline line))).length <
        recommendations.length →
      recommendationLoop recommendations tokens responses 0 = DialogueOutcome.Eof) ∧
    (∀ (cmdTable : List CString) (fork : Option Int) (input : CString)
      (responses : List CString),
      (ExecuteCommand cmdTable fork (TokenizeUserInput input)).1 = -1 →
      FindSimilarCommands ((TokenizeUserInput input).getD 0 []) cmdTable ≠ [] →
      recommendations = DeleteDuplicatedRecommendations
        (FindSimilarCommands ((TokenizeUserInput input).getD 0 []) cmdTable) →
      tokens = TokenizeUserInput input →
      recommendationLoop recommendations tokens responses 0 = DialogueOutcome.Eof →
      (mainIteration cmdTable fork input responses).step = MainStep.Terminate 0 ∧
      (mainIteration cmdTable fork input responses).effects = [ExecEffect.Nothing]) := by
  refine ⟨?_, ?_, ?_⟩
  · intro i hi
    simp [recommendationLoop, hi]
  · intro responses hyes hno
    rw [recommendationLoop_no_yes recommendations tokens responses 0 hyes, if_pos (by omega)]
  · intro cmdTable fork input responses hnf hrec hr ht hout
    subst hr ht
    rw [mainIteration_notFound cmdTable fork input responses hnf hrec, hout]
    exact ⟨rfl, rfl⟩

/-- C18 at the table "ls", "less" and the line "lss": the responses end after
one "n", while candidate 1 is presented, and `main` returns 0. -/
theorem recommendationLoop_eof_witness :
    recommendationLoop [cstr "ls", cstr "less"] [cstr "lss"] [] 1 = DialogueOutcome.Eof ∧
    recommendationLoop [cstr "ls", cstr "less"] [cstr "lss"] [cstr "n\n"] 0 =
      DialogueOutcome.Eof ∧
    (mainIteration [cstr "ls", cstr "less"] none (cstr "lss") [cstr "n\n"]).step =
      MainStep.Terminate 0 :=
  ⟨(recommendationLoop_eof [cstr "ls", cstr "less"] [cstr "lss"]).1 1 (by decide),
    (recommendationLoop_eof [cstr "ls", cstr "less"] [cstr "lss"]).2.1 [cstr "n\n"]
      (by decide) (by decide),
    ((recommendationLoop_eof [cstr "ls", cstr "less"] [cstr "lss"]).2.2
      [cstr "ls", cstr "less"] none (cstr "lss") [cstr "n\n"] (by decide) (by decide)
      (by decide) (by decide) (by decide)).1⟩

/-! ## A bound on the Levenshtein distance -/

theorem levMin_le_subst (delete_cost insert_cost subst_cost : Nat) :
    levMin delete_cost insert_cost subst_cost ≤ subst_cost := by
  unfold levMin
  simp only
  split_ifs <;> omega

theorem levRowCells_bound (c : Byte) (i : Nat) (s2 : CString) (prev : List Nat)
    (diag left j : Nat) (hlen : s2.length = prev.length) (hdiag : diag ≤ max i j)
    (hprev : List.Forall₂ (fun a b => a ≤ b) prev
      ((List.range' (j + 1) prev.length).map (max i))) :
    List.Forall₂ (fun a b => a ≤ b) (levRowCells c s2 prev diag left)
      ((List.range' (j + 1) prev.length).map (max (i + 1))) := by
  induction s2 generalizing prev diag left j with
  | nil =>
    have hp : prev = [] := List.length_eq_zero.mp hlen.symm
    subst hp
    simp [levRowCells]
  | cons d s2 ih =>
    cases prev with
    | nil => simp at hlen
    | cons up prev =>
      have hlen1 : s2.length = prev.length := by simpa using hlen
      simp only [List.length_cons, List.range'_succ, List.map_cons, List.forall₂_cons] at hprev ⊢
      simp only [levRowCells, List.forall₂_cons]
      refine ⟨?_, ih prev up _ (j + 1) hlen1 hprev.1 hprev.2⟩
      have h1 := levMin_le_subst (up + 1) (left + 1) (diag + if c = d then 0 else 1)
      have h2 : (diag + if c = d then 0 else 1) ≤ diag + 1 := by split_ifs <;> omega
      omega

theorem levRow_bound (c : Byte) (i : Nat) (s2 : CString) (prev : List Nat)
    (hlen : prev.length = s2.length + 1)
    (hprev : List.Forall₂ (fun a b => a ≤ b) prev
      ((List.range' 0 (s2.length + 1)).map (max i))) :
    List.Forall₂ (fun a b => a ≤ b) (levRow (i + 1) c s2 prev)
      ((List.range' 0 (s2.length + 1)).map (max (i + 1))) := by
  cases prev with
  | nil => simp at hlen
  | cons p0 prev =>
    have hlen1 : s2.length = prev.length := by simpa using hlen.symm
    simp only [List.range'_succ, List.map_cons, List.forall₂_cons] at hprev ⊢
    simp only [levRow, List.tail_cons, List.headD_cons, List.forall₂_cons]
    refine ⟨by omega, ?_⟩
    have h := levRowCells_bound c i s2 prev p0 (i + 1) 0 hlen1 (by omega)
      (by rw [← hlen1]; exact hprev.2)
    rw [← hlen1] at h
    exact h

theorem levRows_bound (s1 s2 : CString) (i : Nat) (prev : List Nat)
    (hprev : List.Forall₂ (fun a b => a ≤ b) prev
      ((List.range' 0 (s2.length + 1)).map (max i))) :
    List.Forall₂ (fun a b => a ≤ b) (levRows (i + 1) s1 s2 prev)
      ((List.range' 0 (s2.length + 1)).map (max (i + s1.length))) := by
  induction s1 generalizing i prev with
  | nil => simpa [levRows] using hprev
  | cons c s1 ih =>
    have hlen : prev.length = s2.length + 1 := by
      have := hprev.length_eq
      simpa using this
    have h := ih (i + 1) (levRow (i + 1) c s2 prev) (levRow_bound c i s2 prev hlen hprev)
    simp only [levRows, List.length_cons]
    have e : i + (s1.length + 1) = i + 1 + s1.length := by omega
    rw [e]
    exact h

theorem getLastD_le_of_forall₂ (l u : List Nat) (d e : Nat)
    (h : List.Forall₂ (fun a b => a ≤ b) l u) (hde : d ≤ e) :
    l.getLastD d ≤ u.getLastD e := by
  induction h generalizing d e with
  | nil => simpa using hde
  | cons hab _ ih =>
    rw [List.getLastD_cons, List.getLastD_cons]
    exact ih _ _ hab

/-- The Levenshtein distance is at most the greater of the two lengths. -/
theorem LevenshteinDistance_le_max (s1 s2 : CString) :
    LevenshteinDistance s1 s2 ≤ max (strlen s1) (strlen s2) := by
  unfold LevenshteinDistance strlen
  have h0 : List.Forall₂ (fun a b => a ≤ b) (List.range (s2.length + 1))
      ((List.range' 0 (s2.length + 1)).map (max 0)) := by
    rw [List.range_eq_range', List.forall₂_map_right_iff, List.forall₂_same]
    intro x _
    simp
  have h := levRows_bound s1 s2 0 _ h0
  have hl := getLastD_le_of_forall₂ _ _ 0 0 h (Nat.le_refl 0)
  simp only [Nat.zero_add] at hl
  refine le_trans hl ?_
  rw [← List.range_eq_range', List.range_succ, List.map_append, List.map_singleton,
    List.getLastD_concat]

/-- C20: every entry that FindSimilarCommands returns is a table entry of
length at least 2 that satisfies one of the four rules: same length as the
token with a Hamming distance of at most half the length, a Levenshtein
distance whose quotient by the greater length is within 0.4 (below it, in
fact), a permutation of the token, or the token as a contiguous substring;
entries of length 0 or 1 are never returned. -/
theorem FindSimilarCommands_sound (cmd : CString) (cmdTable : List CString) (entry : CString)
    (h : entry ∈ FindSimilarCommands cmd cmdTable) :
    entry ∈ cmdTable ∧ 2 ≤ strlen entry ∧
    ((strlen cmd = strlen entry ∧ 0 ≤ HammingDistance cmd entry ∧
        2 * HammingDistance cmd entry ≤ (strlen cmd : Int)) ∨
      (5 * LevenshteinDistance cmd entry < 2 * max (strlen cmd) (strlen entry) ∧
        5 * LevenshteinDistance cmd entry ≤ 2 * max (strlen cmd) (strlen entry)) ∨
      List.Perm cmd entry ∨
      cmd <:+: entry) := by
  obtain ⟨hin, hm⟩ := FindSimilarCommands_mem cmd cmdTable entry h
  obtain ⟨h2, hrule⟩ := (entryMatches_iff cmd entry).mp hm
  refine ⟨hin, h2, ?_⟩
  rcases hrule with hr | hr | hr | hr
  · left
    obtain ⟨hlen, hd⟩ := (hammingRule_iff cmd entry).mp hr
    have hHD : HammingDistance cmd entry = hammingLoop cmd entry := by
      simp [HammingDistance, hlen]
    rw [hHD]
    exact ⟨hlen, hammingLoop_nonneg cmd entry, hd⟩
  · right; left
    have hlt : 5 * LevenshteinDistance cmd entry < 2 * max (strlen cmd) (strlen entry) := by
      by_contra hcon
      have hf := levenshteinRule_eq_false cmd entry
        (lt_of_lt_of_le (by omega) (le_max_right _ _))
        (LevenshteinDistance_le_max cmd entry) (by omega)
      rw [hf] at hr
      cases hr
    exact ⟨hlt, Nat.le_of_lt hlt⟩
  · right; right; left
    exact (AreAnagrams_iff_perm cmd entry).mp hr
  · right; right; right
    exact (strstr_isSome_iff entry cmd).mp hr

/-- C20 at the token "sl" and the table "a", "ls", "lsof", "cat": the entry
is "ls" alone, which has length 2 and is a permutation of the token. -/
theorem FindSimilarCommands_sound_witness :
    FindSimilarCommands (cstr "sl") [cstr "a", cstr "ls", cstr "lsof", cstr "cat"] =
      [cstr "ls"] ∧
    2 ≤ strlen (cstr "ls") ∧ List.Perm (cstr "sl") (cstr "ls") :=
  ⟨by decide,
    (FindSimilarCommands_sound (cstr "sl") [cstr "a", cstr "ls", cstr "lsof", cstr "cat"]
      (cstr "ls") (by decide)).2.1,
    by decide⟩

/-! ## LoadCommands -/

theorem readdirLoop_eq (entries : List DirEntry) (commands : List CString) :
    readdirLoop entries commands =
      commands ++ ((entries.filter isExecutableFile).map DirEntry.d_name).take
        (MAX_CMDS - commands.length) := by
  induction entries generalizing commands with
  | nil => simp [readdirLoop]
  | cons entry rest ih =>
    unfold readdirLoop
    by_cases hlen : commands.length < MAX_CMDS
    · rw [if_pos hlen]
      by_cases hm : isExecutableFile entry = true
      · rw [if_pos hm, ih, List.filter_cons_of_pos hm, List.map_cons]
        have hsub : MAX_CMDS - commands.length =
            (MAX_CMDS - (commands ++ [entry.d_name]).length) + 1 := by
          simp only [List.length_append, List.length_singleton]; omega
        rw [hsub, List.take_succ_cons]
        simp
      · rw [if_neg hm, ih, List.filter_cons_of_neg hm]
    · rw [if_neg hlen]
      have hz : MAX_CMDS - commands.length = 0 := by omega
      simp [hz]

theorem pathLoop_eq (dirs : List (Option (List DirEntry))) (commands : List CString) :
    pathLoop dirs commands =
      commands ++ (discoveredNames dirs).take (MAX_CMDS - commands.length) := by
  induction dirs generalizing commands with
  | nil => simp [pathLoop, discoveredNames]
  | cons dir rest ih =>
    unfold pathLoop
    by_cases hlen : commands.length < MAX_CMDS
    · rw [if_pos hlen]
      cases dir with
      | none =>
        simp only [ih]
        simp [discoveredNames]
      | some entries =>
        simp only [ih, readdirLoop_eq]
        have hd : discoveredNames (some entries :: rest) =
            (entries.filter isExecutableFile).map DirEntry.d_name ++ discoveredNames rest := by
          simp [discoveredNames]
        rw [hd, List.take_append_eq_append_take, List.append_assoc]
        congr 2
        congr 1
        simp only [List.length_append, List.length_take, List.length_map]
        omega
    · rw [if_neg hlen]
      have hz : MAX_CMDS - commands.length = 0 := by omega
      simp [hz]

theorem strcmp_swap (a b : CString) : strcmp b a = - strcmp a b := by
  induction a generalizing b with
  | nil => cases b <;> simp [strcmp]
  | cons x a ih =>
    cases b with
    | nil => simp [strcmp]
    | cons y b =>
      simp only [strcmp]
      rcases lt_trichotomy x y with h | h | h
      · simp [h, lt_asymm h]
      · subst h; simp [ih]
      · simp [h, lt_asymm h]

theorem strcmp_trans (a b c : CString) (hab : strcmp a b ≤ 0) (hbc : strcmp b c ≤ 0) :
    strcmp a c ≤ 0 := by
  induction a generalizing b c with
  | nil => cases c <;> simp [strcmp]
  | cons x a ih =>
    cases b with
    | nil => simp [strcmp] at hab
    | cons y b =>
      cases c with
      | nil => simp [strcmp] at hbc
      | cons z c =>
        simp only [strcmp] at hab hbc ⊢
        rcases lt_trichotomy x y with h1 | h1 | h1
        · rcases lt_trichotomy y z with h2 | h2 | h2
          · simp [lt_trans h1 h2]
          · subst h2; simp [h1]
          · simp [h2, lt_asymm h2] at hbc
        · subst h1
          rcases lt_trichotomy x z with h2 | h2 | h2
          · simp [h2]
          · subst h2
            simp only [lt_irrefl, if_false] at hab hbc ⊢
            exact ih b c hab hbc
          · simp [h2, lt_asymm h2] at hbc
        · simp [h1, lt_asymm h1] at hab

theorem swapCommands_eq (front middle back : List CString) (x y : CString) :
    swapCommands (front ++ x :: (middle ++ y :: back)) front.length
        (front.length + 1 + middle.length) =
      front ++ y :: (middle ++ x :: back) := by
  have hj : (front ++ x :: (middle ++ y :: back)).getD (front.length + 1 + middle.length) [] =
      y := by
    rw [List.getD_append_right _ _ _ _ (by omega)]
    have e : front.length + 1 + middle.length - front.length = middle.length + 1 := by omega
    rw [e, List.getD_cons_succ, List.getD_append_right _ _ _ _ (Nat.le_refl _)]
    simp
  have hi : (front ++ x :: (middle ++ y :: back)).getD front.length [] = x := by
    rw [List.getD_append_right _ _ _ _ (Nat.le_refl _)]
    simp
  unfold swapCommands
  rw [hi, hj, List.set_append, if_neg (by omega), Nat.sub_self, List.set_cons_zero,
    List.set_append, if_neg (by omega)]
  have e : front.length + 1 + middle.length - front.length = middle.length + 1 := by omega
  rw [e, List.set_cons_succ, List.set_append, if_neg (by omega), Nat.sub_self,
    List.set_cons_zero]

theorem sortInner_spec (i n : Nat) (front middle back : List CString) (x : CString)
    (hi : front.length = i) (hn : back.length = n)
    (hx : ∀ m ∈ middle, strcmp x m ≤ 0) :
    ∃ (least : CString) (others : List CString),
      sortInner i n (i + 1 + middle.length) (front ++ x :: (middle ++ back)) =
        front ++ least :: others ∧
      List.Perm (least :: others) (x :: (middle ++ back)) ∧
      ∀ m ∈ others, strcmp least m ≤ 0 := by
  induction n generalizing middle back x with
  | zero =>
    have hb : back = [] := List.length_eq_zero.mp hn
    subst hb
    exact ⟨x, middle, by simp [sortInner], by simp, hx⟩
  | succ n ih =>
    cases back with
    | nil => simp at hn
    | cons y back =>
      have hn1 : back.length = n := by simpa using hn
      have hgi : (front ++ x :: (middle ++ y :: back)).getD i [] = x := by
        rw [← hi, List.getD_append_right _ _ _ _ (Nat.le_refl _)]
        simp
      have hgj : (front ++ x :: (middle ++ y :: back)).getD (i + 1 + middle.length) [] = y := by
        rw [← hi, List.getD_append_right _ _ _ _ (by omega)]
        have e : front.length + 1 + middle.length - front.length = middle.length + 1 := by omega
        rw [e, List.getD_cons_succ, List.getD_append_right _ _ _ _ (Nat.le_refl _)]
        simp
      unfold sortInner
      rw [hgi, hgj]
      by_cases hgt : strcmp x y > 0
      · rw [if_pos hgt]
        have hsw := swapCommands_eq front middle back x y
        rw [hi] at hsw
        rw [hsw]
        have hyx : strcmp y x ≤ 0 := by rw [strcmp_swap x y]; omega
        have hmid : ∀ m ∈ middle ++ [x], strcmp y m ≤ 0 := by
          intro m hm
          rcases List.mem_append.mp hm with hm | hm
          · exact strcmp_trans y x m hyx (hx m hm)
          · rw [List.mem_singleton.mp hm]; exact hyx
        obtain ⟨least, others, heq, hperm, hleast⟩ := ih (middle ++ [x]) back y hn1 hmid
        refine ⟨least, others, ?_, ?_, hleast⟩
        · simp only [List.length_append, List.length_singleton, List.append_assoc,
            List.singleton_append] at heq
          have e : i + 1 + middle.length + 1 = i + 1 + (middle.length + 1) := by omega
          rw [e]
          exact heq
        · refine hperm.trans ?_
          simp only [List.append_assoc, List.singleton_append]
          have h1 : List.Perm (y :: (middle ++ x :: back)) (y :: x :: (middle ++ back)) :=
            List.Perm.cons y List.perm_middle
          have h2 : List.Perm (x :: (middle ++ y :: back)) (x :: y :: (middle ++ back)) :=
            List.Perm.cons x List.perm_middle
          exact h1.trans ((List.Perm.swap x y _).trans h2.symm)
      · rw [if_neg hgt]
        have hxy : strcmp x y ≤ 0 := by omega
        have hmid : ∀ m ∈ middle ++ [y], strcmp x m ≤ 0 := by
          intro m hm
          rcases List.mem_append.mp hm with hm | hm
          · exact hx m hm
          · rw [List.mem_singleton.mp hm]; exact hxy
        obtain ⟨least, others, heq, hperm, hleast⟩ := ih (middle ++ [y]) back x hn1 hmid
        refine ⟨least, others, ?_, ?_, hleast⟩
        · simp only [List.length_append, List.length_singleton, List.append_assoc,
            List.singleton_append] at heq
          have e : i + 1 + middle.length + 1 = i + 1 + (middle.length + 1) := by omega
          rw [e]
          exact heq
        · simpa only [List.append_assoc, List.singleton_append] using hperm

theorem sortOuter_spec (n : Nat) (front rest : List CString) (hn : rest.length = n) :
    ∃ sorted : List CString,
      sortOuter n front.length (front ++ rest) = front ++ sorted ∧
      List.Perm sorted rest ∧
      List.Pairwise (fun a b => strcmp a b ≤ 0) sorted := by
  induction n generalizing front rest with
  | zero =>
    have hb : rest = [] := List.length_eq_zero.mp hn
    subst hb
    exact ⟨[], by simp [sortOuter], List.Perm.refl _, List.Pairwise.nil⟩
  | succ n ih =>
    cases rest with
    | nil => simp at hn
    | cons x rest =>
      have hn1 : rest.length = n := by simpa using hn
      obtain ⟨least, others, heq, hperm, hleast⟩ :=
        sortInner_spec front.length n front [] rest x rfl hn1 (by simp)
      have hcount : (front ++ x :: rest).length - (front.length + 1) = n := by
        simp only [List.length_append, List.length_cons]; omega
      have hothers : others.length = n := by
        have := hperm.length_eq
        simp only [List.length_cons, List.nil_append] at this
        omega
      obtain ⟨sorted, heq2, hperm2, hsorted⟩ := ih (front ++ [least]) others hothers
      refine ⟨least :: sorted, ?_, ?_, ?_⟩
      · unfold sortOuter
        rw [hcount]
        simp only [List.length_nil, Nat.add_zero, List.nil_append] at heq
        rw [heq]
        simp only [List.length_append, List.length_singleton, List.append_assoc,
          List.singleton_append] at heq2
        exact heq2
      · exact (List.Perm.cons least hperm2).trans (by simpa using hperm)
      · rw [List.pairwise_cons]
        exact ⟨fun m hm => hleast m (hperm2.subset hm), hsorted⟩

theorem sortCommands_spec (commands : List CString) :
    List.Perm (sortCommands commands) commands ∧
    List.Pairwise (fun a b => strcmp a b ≤ 0) (sortCommands commands) := by
  obtain ⟨sorted, heq, hperm, hsorted⟩ := sortOuter_spec commands.length [] commands rfl
  simp only [List.length_nil, List.nil_append] at heq
  unfold sortCommands
  rw [heq]
  exact ⟨hperm, hsorted⟩

theorem foldl_addBuiltIn (names commands : List CString) :
    names.foldl addBuiltIn commands =
      commands ++ names.take (MAX_CMDS - commands.length) := by
  induction names generalizing commands with
  | nil => simp
  | cons name names ih =>
    rw [List.foldl_cons, ih]
    unfold addBuiltIn
    by_cases hlen : commands.length < MAX_CMDS
    · rw [if_pos hlen]
      have hsub : MAX_CMDS - commands.length =
          (MAX_CMDS - (commands ++ [name]).length) + 1 := by
        simp only [List.length_append, List.length_singleton]; omega
      rw [hsub, List.take_succ_cons]
      simp
    · rw [if_neg hlen]
      have hz : MAX_CMDS - commands.length = 0 := by omega
      simp [hz]

theorem LoadCommands_eq (dirs : List (Option (List DirEntry))) :
    LoadCommands dirs =
      sortCommands ((discoveredNames dirs).take MAX_CMDS) ++
        builtInCommands.take (MAX_CMDS - min MAX_CMDS (discoveredNames dirs).length) := by
  have h : LoadCommands dirs = builtInCommands.foldl addBuiltIn
      (sortCommands (pathLoop dirs [])) := by
    unfold LoadCommands builtInCommands
    simp only [List.foldl_cons, List.foldl_nil]
  rw [h, foldl_addBuiltIn, pathLoop_eq]
  simp only [List.nil_append, List.length_nil, Nat.sub_zero]
  rw [(sortCommands_spec _).1.length_eq, List.length_take]

/-- C15: when at most 2043 executable names are discovered, the table built by
LoadCommands is the discovered names sorted in non-decreasing strcmp order, a
permutation that keeps duplicates, followed by the built-in names "exit",
"help", "clear", "list", "history" in that order. -/
theorem LoadCommands_sorted (dirs : List (Option (List DirEntry)))
    (hn : (discoveredNames dirs).length ≤ 2043) :
    LoadCommands dirs = sortCommands (discoveredNames dirs) ++
      [cstr "exit", cstr "help", cstr "clear", cstr "list", cstr "history"] ∧
    List.Perm (sortCommands (discoveredNames dirs)) (discoveredNames dirs) ∧
    List.Pairwise (fun a b => strcmp a b ≤ 0) (sortCommands (discoveredNames dirs)) := by
  refine ⟨?_, (sortCommands_spec _).1, (sortCommands_spec _).2⟩
  rw [LoadCommands_eq, List.take_of_length_le (by simp only [MAX_CMDS]; omega)]
  congr 1
  apply List.take_of_length_le
  simp only [MAX_CMDS, builtInCommands, List.length_cons, List.length_nil]
  omega

/-- C15 at two directories with the executables "ls", "cat" and "Zip", "cat",
a directory that cannot be opened, a file that is not executable and an entry
that is a directory. -/
theorem LoadCommands_sorted_witness :
    LoadCommands [some [⟨cstr "ls", 8, true⟩, ⟨cstr "cat", 10, true⟩, ⟨cstr "x", 4, true⟩,
        ⟨cstr "awk", 8, false⟩], none, some [⟨cstr "Zip", 8, true⟩, ⟨cstr "cat", 8, true⟩]] =
      [cstr "Zip", cstr "cat", cstr "cat", cstr "ls", cstr "exit", cstr "help", cstr "clear",
        cstr "list", cstr "history"] :=
  (LoadCommands_sorted [some [⟨cstr "ls", 8, true⟩, ⟨cstr "cat", 10, true⟩,
      ⟨cstr "x", 4, true⟩, ⟨cstr "awk", 8, false⟩], none,
      some [⟨cstr "Zip", 8, true⟩, ⟨cstr "cat", 8, true⟩]] (by decide)).1.trans (by decide)

/-- C16: the table built by LoadCommands from n discovered names has exactly
min(n + 5, 2048) entries, never more than 2048; when 2048 or more names are
discovered it is exactly the first 2048 discovered names, sorted, and neither a
later name nor a built-in name is added. -/
theorem LoadCommands_length (dirs : List (Option (List DirEntry))) :
    (LoadCommands dirs).length = min ((discoveredNames dirs).length + 5) 2048 ∧
    (LoadCommands dirs).length ≤ 2048 ∧
    (2048 ≤ (discoveredNames dirs).length →
      LoadCommands dirs = sortCommands ((discoveredNames dirs).take 2048) ∧
      (LoadCommands dirs).length = 2048 ∧
      List.Perm (LoadCommands dirs) ((discoveredNames dirs).take 2048) ∧
      List.Pairwise (fun a b => strcmp a b ≤ 0) (LoadCommands dirs)) := by
  have hlen : (LoadCommands dirs).length = min ((discoveredNames dirs).length + 5) 2048 := by
    rw [LoadCommands_eq, List.length_append, (sortCommands_spec _).1.length_eq,
      List.length_take, List.length_take]
    simp only [MAX_CMDS, builtInCommands, List.length_cons, List.length_nil]
    omega
  refine ⟨hlen, by omega, ?_⟩
  intro hn
  have heq : LoadCommands dirs = sortCommands ((discoveredNames dirs).take 2048) := by
    rw [LoadCommands_eq]
    have hz : MAX_CMDS - min MAX_CMDS (discoveredNames dirs).length = 0 := by
      simp only [MAX_CMDS]; omega
    rw [hz, List.take_zero, List.append_nil]
    rfl
  refine ⟨heq, by omega, ?_, ?_⟩
  · rw [heq]; exact (sortCommands_spec _).1
  · rw [heq]; exact (sortCommands_spec _).2

theorem discoveredNames_replicate (n : Nat) (entry : DirEntry)
    (h : isExecutableFile entry = true) :
    discoveredNames [some (List.replicate n entry)] = List.replicate n entry.d_name := by
  have hf : (List.replicate n entry).filter isExecutableFile = List.replicate n entry := by
    rw [List.filter_eq_self]
    intro a ha
    rw [List.eq_of_mem_replicate ha]
    exact h
  unfold discoveredNames
  rw [List.map_cons, List.map_nil, List.flatten_cons, List.flatten_nil, List.append_nil]
  simp only [hf, List.map_replicate]

/-- C16 at one directory with 2050 executable entries: the table has 2048
entries and no built-in name is added. -/
theorem LoadCommands_length_witness :
    (LoadCommands [some (List.replicate 2050 ⟨cstr "ls", 8, true⟩)]).length = 2048 ∧
    List.Perm (LoadCommands [some (List.replicate 2050 ⟨cstr "ls", 8, true⟩)])
      ((discoveredNames [some (List.replicate 2050 ⟨cstr "ls", 8, true⟩)]).take 2048) :=
  ⟨((LoadCommands_length [some (List.replicate 2050 ⟨cstr "ls", 8, true⟩)]).2.2
      (by rw [discoveredNames_replicate 2050 _ (by decide), List.length_replicate]
          decide)).2.1,
    ((LoadCommands_length [some (List.replicate 2050 ⟨cstr "ls", 8, true⟩)]).2.2
      (by rw [discoveredNames_replicate 2050 _ (by decide), List.length_replicate]
          decide)).2.2.1⟩

/-! ## LevenshteinDistance against the recursive edit distance -/

theorem levMin_eq_min (delete_cost insert_cost subst_cost : Nat) :
    levMin delete_cost insert_cost subst_cost = min delete_cost (min insert_cost subst_cost) := by
  unfold levMin
  simp only
  split_ifs <;> omega

theorem editDistance_nil_left (t : CString) : editDistance [] t = t.length := by
  simp [editDistance, editDistanceRev]

theorem editDistance_nil_right (s : CString) : editDistance s [] = s.length := by
  unfold editDistance
  cases h : s.reverse with
  | nil => simp [editDistanceRev, List.reverse_eq_nil_iff.mp h]
  | cons a r =>
    have : s.length = (a :: r).length := by rw [← h, List.length_reverse]
    simp [editDistanceRev, this]

theorem editDistance_snoc (s t : CString) (a b : Byte) :
    editDistance (s ++ [a]) (t ++ [b]) =
      min (editDistance s (t ++ [b]) + 1)
        (min (editDistance (s ++ [a]) t + 1) (editDistance s t + if a = b then 0 else 1)) := by
  simp only [editDistance, List.reverse_append, List.reverse_cons, List.reverse_nil,
    List.nil_append, List.singleton_append]
  rw [editDistanceRev]

theorem levRowCells_eq (c : Byte) (p : CString) (rem done : CString) :
    levRowCells c rem (rem.inits.tail.map (fun q => editDistance p (done ++ q)))
        (editDistance p done) (editDistance (p ++ [c]) done) =
      rem.inits.tail.map (fun q => editDistance (p ++ [c]) (done ++ q)) := by
  induction rem generalizing done with
  | nil => simp [levRowCells]
  | cons d rem ih =>
    have htail : (d :: rem).inits.tail = [d] :: rem.inits.tail.map (fun q => d :: q) := by
      cases rem <;> simp [List.inits]
    have hcomp : ∀ (r : CString) (f : CString → Nat),
        (rem.inits.tail.map (fun q => d :: q)).map (fun q => f (done ++ q)) =
          rem.inits.tail.map (fun q => f ((done ++ [d]) ++ q)) := by
      intro r f
      rw [List.map_map]
      apply List.map_congr_left
      intro q _
      simp only [Function.comp, List.append_assoc, List.singleton_append]
    rw [htail, List.map_cons, List.map_cons, hcomp [] (editDistance p),
      hcomp [] (editDistance (p ++ [c]))]
    simp only [levRowCells]
    have hcell : levMin (editDistance p (done ++ [d]) + 1) (editDistance (p ++ [c]) done + 1)
        (editDistance p done + if c = d then 0 else 1) =
        editDistance (p ++ [c]) (done ++ [d]) := by
      rw [levMin_eq_min, editDistance_snoc]
    rw [hcell, ih (done ++ [d])]

theorem inits_map_length (s : CString) : s.inits.map List.length = List.range (s.length + 1) := by
  induction s with
  | nil => rfl
  | cons a s ih =>
    rw [List.inits, List.map_cons, List.map_map, List.length_cons, List.range_succ_eq_map,
      ← ih, List.map_map]
    rfl

theorem levRow_eq (c : Byte) (p s2 : CString) :
    levRow (p.length + 1) c s2 (s2.inits.map (editDistance p)) =
      s2.inits.map (editDistance (p ++ [c])) := by
  have hinits : s2.inits = [] :: s2.inits.tail := by cases s2 <;> simp [List.inits]
  have h := levRowCells_eq c p s2 []
  simp only [List.nil_append] at h
  unfold levRow
  rw [hinits, List.map_cons, List.map_cons, List.tail_cons, List.headD_cons]
  have h0 : editDistance (p ++ [c]) [] = p.length + 1 := by
    rw [editDistance_nil_right]; simp
  rw [h0, editDistance_nil_right p] at h
  rw [h0, editDistance_nil_right p]
  congr 1

theorem levRows_eq (s1 s2 p : CString) :
    levRows (p.length + 1) s1 s2 (s2.inits.map (editDistance p)) =
      s2.inits.map (editDistance (p ++ s1)) := by
  induction s1 generalizing p with
  | nil => simp [levRows]
  | cons c s1 ih =>
    rw [levRows, levRow_eq]
    have h := ih (p ++ [c])
    simp only [List.length_append, List.length_singleton, List.append_assoc,
      List.singleton_append] at h
    exact h

theorem getLastD_map_inits (f : CString → Nat) (s : CString) (d : Nat) :
    (s.inits.map f).getLastD d = f s := by
  induction s generalizing f d with
  | nil => simp [List.inits]
  | cons a s ih =>
    rw [List.inits, List.map_cons, List.getLastD_cons, List.map_map]
    exact ih (f ∘ fun q => a :: q) (f [])

/-! ## The edit distance as a minimum number of edits -/

theorem editDistanceRev_nil_right (s : CString) : editDistanceRev s [] = s.length := by
  cases s <;> simp [editDistanceRev]

theorem editDistanceRev_cons_cons (a b : Byte) (s t : CString) :
    editDistanceRev (a :: s) (b :: t) =
      min (editDistanceRev s (b :: t) + 1)
        (min (editDistanceRev (a :: s) t + 1) (editDistanceRev s t + if a = b then 0 else 1)) := by
  rw [editDistanceRev]

theorem editDistanceRev_self (s : CString) : editDistanceRev s s = 0 := by
  induction s with
  | nil => simp [editDistanceRev]
  | cons a s ih =>
    rw [editDistanceRev_cons_cons]
    simp only [if_true, ih]
    omega

theorem editDistanceRev_cons_right_le (y u : CString) (b : Byte) :
    editDistanceRev y (b :: u) ≤ editDistanceRev y u + 1 := by
  cases y with
  | nil => simp [editDistanceRev]
  | cons a y =>
    rw [editDistanceRev_cons_cons]
    omega

theorem editDistanceRev_cons_left_le (y u : CString) (c : Byte) :
    editDistanceRev (c :: y) u ≤ editDistanceRev y u + 1 := by
  cases u with
  | nil => simp [editDistanceRev_nil_right]
  | cons b u =>
    rw [editDistanceRev_cons_cons]
    omega

theorem editDistanceRev_le_cons_left (y u : CString) (c : Byte) :
    editDistanceRev y u ≤ editDistanceRev (c :: y) u + 1 := by
  induction u with
  | nil => simp only [editDistanceRev_nil_right, List.length_cons]; omega
  | cons b u ih =>
    rw [editDistanceRev_cons_cons]
    have h1 := editDistanceRev_cons_right_le y u b
    omega

theorem editDistanceRev_substitute_head (y u : CString) (c d : Byte) :
    editDistanceRev (c :: y) u ≤ editDistanceRev (d :: y) u + 1 := by
  induction u with
  | nil => simp [editDistanceRev_nil_right]
  | cons b u ih =>
    rw [editDistanceRev_cons_cons, editDistanceRev_cons_cons]
    have hc : (if c = b then 0 else 1) ≤ 1 := by split_ifs <;> omega
    omega

theorem editDistanceRev_cons_congr (a : Byte) (s t : CString)
    (h : ∀ u, editDistanceRev s u ≤ editDistanceRev t u + 1) :
    ∀ u, editDistanceRev (a :: s) u ≤ editDistanceRev (a :: t) u + 1 := by
  intro u
  induction u with
  | nil =>
    have := h []
    simp only [editDistanceRev_nil_right] at this
    simp only [editDistanceRev_nil_right, List.length_cons]
    omega
  | cons b u ih =>
    rw [editDistanceRev_cons_cons, editDistanceRev_cons_cons]
    have h1 := h (b :: u)
    have h2 := h u
    omega

theorem editDistanceRev_insert (x y : CString) (c : Byte) :
    ∀ u, editDistanceRev (x ++ y) u ≤ editDistanceRev (x ++ c :: y) u + 1 := by
  induction x with
  | nil => intro u; exact editDistanceRev_le_cons_left y u c
  | cons a x ih => exact editDistanceRev_cons_congr a _ _ ih

theorem editDistanceRev_delete (x y : CString) (c : Byte) :
    ∀ u, editDistanceRev (x ++ c :: y) u ≤ editDistanceRev (x ++ y) u + 1 := by
  induction x with
  | nil => intro u; exact editDistanceRev_cons_left_le y u c
  | cons a x ih => exact editDistanceRev_cons_congr a _ _ ih

theorem editDistanceRev_substitute (x y : CString) (c d : Byte) :
    ∀ u, editDistanceRev (x ++ c :: y) u ≤ editDistanceRev (x ++ d :: y) u + 1 := by
  induction x with
  | nil => intro u; exact editDistanceRev_substitute_head y u c d
  | cons a x ih => exact editDistanceRev_cons_congr a _ _ ih

theorem editDistance_step (s t : CString) (h : EditStep s t) (u : CString) :
    editDistance s u ≤ editDistance t u + 1 := by
  unfold editDistance
  cases h with
  | insert before after c =>
    simp only [List.reverse_append, List.reverse_cons, List.append_assoc, List.singleton_append]
    exact editDistanceRev_insert _ _ c _
  | delete before after c =>
    simp only [List.reverse_append, List.reverse_cons, List.append_assoc, List.singleton_append]
    exact editDistanceRev_delete _ _ c _
  | substitute before after c d =>
    simp only [List.reverse_append, List.reverse_cons, List.append_assoc, List.singleton_append]
    exact editDistanceRev_substitute _ _ c d _

/-- No sequence of single-character edits from `s` to `t` is shorter than the
edit distance. -/
theorem editDistance_le_of_path (s t : CString) (n : Nat) (h : EditPath s t n) :
    editDistance s t ≤ n := by
  induction h with
  | done s => simp [editDistance, editDistanceRev_self]
  | @step s t u n hstep _ ih =>
    have := editDistance_step s t hstep u
    omega

theorem editPath_snoc {s t u : CString} {n : Nat} (h : EditPath s t n) (hstep : EditStep t u) :
    EditPath s u (n + 1) := by
  induction h with
  | done s => exact EditPath.step hstep (EditPath.done u)
  | step h1 _ ih => exact EditPath.step h1 (ih hstep)

theorem editStep_append {s t : CString} (h : EditStep s t) (x : CString) :
    EditStep (s ++ x) (t ++ x) := by
  cases h with
  | insert before after c =>
    have := EditStep.insert before (after ++ x) c
    simpa only [List.append_assoc, List.cons_append] using this
  | delete before after c =>
    have := EditStep.delete before (after ++ x) c
    simpa only [List.append_assoc, List.cons_append] using this
  | substitute before after c d =>
    have := EditStep.substitute before (after ++ x) c d
    simpa only [List.append_assoc, List.cons_append] using this

theorem editPath_append {s t : CString} {n : Nat} (h : EditPath s t n) (x : CString) :
    EditPath (s ++ x) (t ++ x) n := by
  induction h with
  | done s => exact EditPath.done _
  | step h1 _ ih => exact EditPath.step (editStep_append h1 x) ih

theorem editPath_of_nil (t : CString) : EditPath [] t t.length := by
  induction t with
  | nil => exact EditPath.done []
  | cons c t ih => exact editPath_snoc ih (EditStep.insert [] t c)

theorem editPath_to_nil (s : CString) : EditPath s [] s.length := by
  induction s with
  | nil => exact EditPath.done []
  | cons c s ih => exact EditPath.step (EditStep.delete [] s c) ih

/-- There is a sequence of single-character edits from `s` to `t` whose length
is the edit distance. -/
theorem editDistance_path (n : Nat) :
    ∀ s t : CString, s.length + t.length = n → EditPath s t (editDistance s t) := by
  induction n using Nat.strong_induction_on with
  | _ n ih =>
    intro s t hn
    rcases List.eq_nil_or_concat s with rfl | ⟨s1, a, hs⟩
    · rw [editDistance_nil_left]; exact editPath_of_nil t
    · rw [List.concat_eq_append] at hs
      subst hs
      rcases List.eq_nil_or_concat t with rfl | ⟨t1, b, ht⟩
      · rw [editDistance_nil_right]; exact editPath_to_nil _
      · rw [List.concat_eq_append] at ht
        subst ht
        have hlen : s1.length + 1 + (t1.length + 1) = n := by
          rw [← hn, List.length_append, List.length_append]
          rfl
        have p1 := ih (s1.length + (t1 ++ [b]).length)
          (by rw [List.length_append, List.length_singleton]; omega) s1 (t1 ++ [b]) rfl
        have p2 := ih ((s1 ++ [a]).length + t1.length)
          (by rw [List.length_append, List.length_singleton]; omega) (s1 ++ [a]) t1 rfl
        have p3 := ih (s1.length + t1.length) (by omega) s1 t1 rfl
        rw [editDistance_snoc]
        have hdel : EditPath (s1 ++ [a]) (t1 ++ [b]) (editDistance s1 (t1 ++ [b]) + 1) := by
          have hs : EditStep (s1 ++ [a]) s1 := by
            have := EditStep.delete s1 [] a
            simpa using this
          exact EditPath.step hs p1
        have hins : EditPath (s1 ++ [a]) (t1 ++ [b]) (editDistance (s1 ++ [a]) t1 + 1) := by
          have hs : EditStep t1 (t1 ++ [b]) := by
            have := EditStep.insert t1 [] b
            simpa using this
          exact editPath_snoc p2 hs
        have hsub : EditPath (s1 ++ [a]) (t1 ++ [b])
            (editDistance s1 t1 + if a = b then 0 else 1) := by
          have hp := editPath_append p3 [a]
          by_cases hab : a = b
          · subst hab
            rw [if_pos rfl]
            exact hp
          · rw [if_neg hab]
            exact editPath_snoc hp (EditStep.substitute t1 [] a b)
        rcases Nat.le_total (editDistance s1 (t1 ++ [b]) + 1)
          (min (editDistance (s1 ++ [a]) t1 + 1)
            (editDistance s1 t1 + if a = b then 0 else 1)) with h | h
        · rw [min_eq_left h]; exact hdel
        · rw [min_eq_right h]
          rcases Nat.le_total (editDistance (s1 ++ [a]) t1 + 1)
            (editDistance s1 t1 + if a = b then 0 else 1) with h2 | h2
          · rw [min_eq_left h2]; exact hins
          · rw [min_eq_right h2]; exact hsub

/-- C21: for all strings, LevenshteinDistance equals the standard recursive
edit distance: the distance from or to the empty string is the length of the
other string, and otherwise it is the minimum of a deletion plus 1, an
insertion plus 1 and a substitution plus 0 when the last characters are equal
and plus 1 when they are not.  It is the minimum number of single-character
insertions, deletions and substitutions that transform s1 into s2: some
sequence of that many edits does, and no shorter one. -/
theorem LevenshteinDistance_eq_editDistance (s1 s2 : CString) :
    LevenshteinDistance s1 s2 = editDistance s1 s2 ∧
    (∀ t : CString, LevenshteinDistance [] t = strlen t) ∧
    (∀ s : CString, LevenshteinDistance s [] = strlen s) ∧
    (∀ (s t : CString) (a b : Byte),
      LevenshteinDistance (s ++ [a]) (t ++ [b]) =
        min (LevenshteinDistance s (t ++ [b]) + 1)
          (min (LevenshteinDistance (s ++ [a]) t + 1)
            (LevenshteinDistance s t + if a = b then 0 else 1))) ∧
    EditPath s1 s2 (LevenshteinDistance s1 s2) ∧
    (∀ n : Nat, EditPath s1 s2 n → LevenshteinDistance s1 s2 ≤ n) := by
  have key : ∀ s t : CString, LevenshteinDistance s t = editDistance s t := by
    intro s t
    unfold LevenshteinDistance strlen
    have h0 : List.range (t.length + 1) = t.inits.map (editDistance []) := by
      rw [← inits_map_length]
      apply List.map_congr_left
      intro q _
      exact (editDistance_nil_left q).symm
    have h := levRows_eq s t []
    simp only [List.length_nil, Nat.zero_add, List.nil_append] at h
    rw [h0, h, getLastD_map_inits]
  refine ⟨key s1 s2, ?_, ?_, ?_, ?_, ?_⟩
  · intro t; rw [key, editDistance_nil_left]; rfl
  · intro s; rw [key, editDistance_nil_right]; rfl
  · intro s t a b
    simp only [key]
    exact editDistance_snoc s t a b
  · rw [key]
    exact editDistance_path _ s1 s2 rfl
  · intro n hn
    rw [key]
    exact editDistance_le_of_path s1 s2 n hn

/-- C21 at "cat" and "cut": one substitution transforms the one into the other,
so the distance is at most 1, and it is 1. -/
theorem LevenshteinDistance_eq_editDistance_witness :
    LevenshteinDistance [99, 97, 116] [99, 117, 116] ≤ 1 ∧
    LevenshteinDistance [99, 97, 116] [99, 117, 116] = 1 ∧
    cstr "cat" = [99, 97, 116] ∧ cstr "cut" = [99, 117, 116] :=
  ⟨(LevenshteinDistance_eq_editDistance [99, 97, 116] [99, 117, 116]).2.2.2.2.2 1
      (EditPath.step (EditStep.substitute [99] [116] 97 117) (EditPath.done _)),
    by decide, by decide, by decide⟩

/-! ## AreAnagrams -/

/-- C22: for all strings, AreAnagrams returns true exactly when the two strings
have equal length and the same multiset of bytes, that is when one is a
permutation of the other; it returns false whenever the lengths differ. -/
theorem AreAnagrams_iff (str1 str2 : CString) :
    (AreAnagrams str1 str2 = true ↔
      strlen str1 = strlen str2 ∧ (str1 : Multiset Byte) = (str2 : Multiset Byte)) ∧
    (AreAnagrams str1 str2 = true ↔ List.Perm str1 str2) ∧
    (AreAnagrams str1 str2 = true ↔
      strlen str1 = strlen str2 ∧ ∀ b : Byte, str1.count b = str2.count b) ∧
    (strlen str1 ≠ strlen str2 → AreAnagrams str1 str2 = false) := by
  have hperm := AreAnagrams_iff_perm str1 str2
  refine ⟨?_, hperm, ?_, ?_⟩
  · rw [hperm, Multiset.coe_eq_coe]
    constructor
    · intro h; exact ⟨h.length_eq, h⟩
    · intro h; exact h.2
  · rw [hperm, List.perm_iff_count]
    constructor
    · intro h; exact ⟨(List.perm_iff_count.mpr h).length_eq, h⟩
    · intro h; exact h.2
  · intro hlen
    rw [← Bool.not_eq_true, hperm]
    intro h
    exact hlen h.length_eq

/-- C22 at "listen" and "silent", which are anagrams, and at "ab" and "abc",
whose lengths differ. -/
theorem AreAnagrams_iff_witness :
    AreAnagrams (cstr "listen") (cstr "silent") = true ∧
    AreAnagrams (cstr "ab") (cstr "abc") = false :=
  ⟨((AreAnagrams_iff (cstr "listen") (cstr "silent")).2.1).mpr (by decide),
    (AreAnagrams_iff (cstr "ab") (cstr "abc")).2.2.2 (by decide)⟩

/-! ## Tokenising the joined command line -/

theorem strtokLoop_no_delims (delims : List Byte) (input cur : CString)
    (hcur : ∀ c ∈ cur, c ∉ delims) :
    ∀ t ∈ strtokLoop delims input cur, ∀ c ∈ t, c ∉ delims := by
  induction input generalizing cur with
  | nil =>
    intro t ht
    by_cases hc : cur = []
    · simp [strtokLoop, hc] at ht
    · simp only [strtokLoop, hc, if_false, List.mem_singleton] at ht
      rw [ht]; exact hcur
  | cons x rest ih =>
    intro t ht
    rw [strtokLoop] at ht
    by_cases hd : x ∈ delims
    · rw [if_pos hd] at ht
      by_cases hc : cur = []
      · rw [if_pos hc] at ht
        exact ih [] (by simp) t ht
      · rw [if_neg hc, List.mem_cons] at ht
        rcases ht with ht | ht
        · rw [ht]; exact hcur
        · exact ih [] (by simp) t ht
    · rw [if_neg hd] at ht
      refine ih (cur ++ [x]) ?_ t ht
      intro c hc
      rcases List.mem_append.mp hc with hc | hc
      · exact hcur c hc
      · rw [List.mem_singleton.mp hc]; exact hd

/-- The tokens that `TokenizeUserInput` returns contain no space and no tab,
and there are at most `MAX_CMD_LENGTH - 1` of them. -/
theorem TokenizeUserInput_tokens (command : CString) :
    (∀ t ∈ TokenizeUserInput command, t ≠ [] ∧ ∀ c ∈ t, c ∉ ([32, 9] : List Byte)) ∧
    (TokenizeUserInput command).length ≤ MAX_CMD_LENGTH - 1 := by
  constructor
  · intro t ht
    exact ⟨TokenizeUserInput_ne_nil command t ht,
      strtokLoop_no_delims [32, 9] command [] (by simp) t (List.mem_of_mem_take ht)⟩
  · unfold TokenizeUserInput
    rw [List.length_take]
    exact Nat.min_le_left _ _

/-- C23: for a non-empty candidate without space and tab and a token sequence
as TokenizeUserInput produces it (at most 1023 tokens, each non-empty and
without space and tab), tokenising the line built by JoinUserRecommendation
gives exactly the candidate followed by the tokens 1.., unchanged and in order;
for a non-empty sequence the count is the same.  This holds in particular for
the tokens of every input line. -/
theorem TokenizeUserInput_roundtrip (candidate : CString) (hne : candidate ≠ [])
    (hws : ∀ c ∈ candidate, c ∉ ([32, 9] : List Byte)) :
    (∀ tokens : List CString,
      (∀ t ∈ tokens, t ≠ [] ∧ ∀ c ∈ t, c ∉ ([32, 9] : List Byte)) →
      tokens.length ≤ MAX_CMD_LENGTH - 1 →
      TokenizeUserInput (JoinUserRecommendation candidate tokens) = candidate :: tokens.tail ∧
      (tokens ≠ [] →
        (TokenizeUserInput (JoinUserRecommendation candidate tokens)).length =
          tokens.length)) ∧
    (∀ line : CString,
      TokenizeUserInput (JoinUserRecommendation candidate (TokenizeUserInput line)) =
        candidate :: (TokenizeUserInput line).tail) := by
  have key : ∀ tokens : List CString,
      (∀ t ∈ tokens, t ≠ [] ∧ ∀ c ∈ t, c ∉ ([32, 9] : List Byte)) →
      tokens.length ≤ MAX_CMD_LENGTH - 1 →
      TokenizeUserInput (JoinUserRecommendation candidate tokens) =
        candidate :: tokens.tail := by
    intro tokens htok hlen
    apply TokenizeUserInput_JoinUserRecommendation candidate tokens hne hws
    · intro t ht
      exact htok t (List.mem_of_mem_tail ht)
    · rw [List.length_tail]
      simp only [MAX_CMD_LENGTH] at hlen ⊢
      omega
  constructor
  · intro tokens htok hlen
    refine ⟨key tokens htok hlen, ?_⟩
    intro hnil
    rw [key tokens htok hlen, List.length_cons, List.length_tail]
    have : 0 < tokens.length := List.length_pos.mpr hnil
    omega
  · intro line
    exact key _ (TokenizeUserInput_tokens line).1 (TokenizeUserInput_tokens line).2

/-- C23 at the candidate "git" and the tokens of the line "gti  commit -m x":
the new tokens are "git", "commit", "-m", "x". -/
theorem TokenizeUserInput_roundtrip_witness :
    TokenizeUserInput (JoinUserRecommendation (cstr "git")
        [cstr "gti", cstr "commit", cstr "-m", cstr "x"]) =
      [cstr "git", cstr "commit", cstr "-m", cstr "x"] ∧
    TokenizeUserInput (JoinUserRecommendation (cstr "git")
        (TokenizeUserInput (cstr "gti  commit -m x"))) =
      cstr "git" :: (TokenizeUserInput (cstr "gti  commit -m x")).tail :=
  ⟨((TokenizeUserInput_roundtrip (cstr "git") (by decide) (by decide)).1
      [cstr "gti", cstr "commit", cstr "-m", cstr "x"] (by decide) (by decide)).1,
    (TokenizeUserInput_roundtrip (cstr "git") (by decide) (by decide)).2
      (cstr "gti  commit -m x")⟩

/-! ## The accepted candidate in `main` -/

end Dwimsh
